import Mathlib

/-!
Verification development for the srsRAN PDCCH CORESET allocator
(`src/srsgnb/hdr/stack/mac/sched_nr_pdcch.h`) and the memory-pool stack
(`srslte::memblock_stack`, `src/unnamed/part_000`).

The CORESET allocator state and accessors are translated from the header.
The bodies of `alloc_dci`, `get_next_dfs`, `alloc_dfs_node`, `rem_last_dci`
and `reset` are not part of the provided sources (the header declares them
only), so the search is modelled from the specification: a first-fit,
provider-list-order backtracking search over candidate CCE positions that,
when the new grant cannot be placed, advances the candidate cursor of the
most recently committed grant and re-places forward, until a full solution
is found or the search space is exhausted.

Machine integers are modelled as `Nat`; CCE occupancy masks are `Nat`
bitmasks (bit `i` set means CCE `i` is consumed).
-/

/-! ## memblock_stack (from `src/unnamed/part_000`)

The C++ stack threads a linked list through the caller-provided blocks;
we model the list of stored block addresses directly and keep the
separate `count` field exactly as the source maintains it: `push`
increments it, `try_pop` decrements it, and `clear` leaves it untouched
(the source `clear()` only sets `head = nullptr`). -/

structure memblock_stack where
  head : List Nat
  count : Nat
  deriving DecidableEq, Repr

/-- A freshly constructed stack: `head = nullptr`, `count = 0`. -/
def memblock_stack.new : memblock_stack := ⟨[], 0⟩

/-- push: `node* next = ::new (block) node(head); head = next; count++;` -/
def memblock_stack.push (s : memblock_stack) (block : Nat) : memblock_stack :=
  { s with head := block :: s.head, count := s.count + 1 }

/-- is_empty: `return head == nullptr;` -/
def memblock_stack.is_empty (s : memblock_stack) : Bool :=
  s.head = []

/-- try_pop: returns `nullptr` (modelled as `none`) on an empty stack,
otherwise pops the head and decrements `count`. -/
def memblock_stack.try_pop (s : memblock_stack) : Option Nat × memblock_stack :=
  match s.head with
  | [] => (none, s)
  | b :: rest => (some b, { s with head := rest, count := s.count - 1 })

/-- size: `return count;` -/
def memblock_stack.size (s : memblock_stack) : Nat := s.count

/-- clear: `head = nullptr;` — note the source does NOT reset `count`. -/
def memblock_stack.clear (s : memblock_stack) : memblock_stack :=
  { s with head := [] }

/-- Operations on a `memblock_stack`, for stating properties over arbitrary
operation sequences. -/
inductive mem_op
  | push (block : Nat)
  | try_pop
  | clear
  deriving DecidableEq, Repr

def memblock_stack.run_op (s : memblock_stack) : mem_op → memblock_stack
  | mem_op.push b => s.push b
  | mem_op.try_pop => (s.try_pop).2
  | mem_op.clear => s.clear

def memblock_stack.run (s : memblock_stack) : List mem_op → memblock_stack
  | [] => s
  | op :: ops => (s.run_op op).run ops

/-! ## PDCCH CORESET allocator data model (from `sched_nr_pdcch.h`) -/

/-- Grant types, from the header enumeration. -/
inductive pdcch_grant_type_t
  | sib
  | rar
  | dl_data
  | ul_data
  deriving DecidableEq, Repr, Inhabited

/-- Modelled from the spec: `SRSRAN_INVALID_RNTI` is the reserved invalid
RNTI value used when a grant has no UE (broadcast/RAR); the constant is
defined outside the provided sources. -/
def SRSRAN_INVALID_RNTI : Nat := 0

/-- Allocation record, from the header `struct alloc_record`.  The UE is
modelled by its RNTI (`none` for broadcast/RAR allocations). -/
structure alloc_record where
  aggr_idx : Nat
  ss_id : Nat
  idx : Nat
  alloc_type : pdcch_grant_type_t
  ue : Option Nat
  deriving DecidableEq, Repr, Inhabited

/-- DCI location, from `srsran_dci_location_t` (aggregation field and CCE
start index). -/
structure srsran_dci_location_t where
  L : Nat
  ncce : Nat
  deriving DecidableEq, Repr, Inhabited

/-- Decision-tree node, from the header `struct tree_node`.  `current_mask`
is the incremental CCE mask of this grant, `total_mask` the cumulative mask
of the DFS path up to and including it. -/
structure tree_node where
  rnti : Nat := SRSRAN_INVALID_RNTI
  record_idx : Nat := 0
  dci_pos_idx : Nat := 0
  dci_pos : srsran_dci_location_t := ⟨0, 0⟩
  current_mask : Nat := 0
  total_mask : Nat := 0
  deriving DecidableEq, Repr, Inhabited

/-- Committed PDCCH grant as written to the output lists (cce start,
aggregation field, grant type, UE reference). -/
structure pdcch_t where
  rnti : Nat
  dci_pos : srsran_dci_location_t
  alloc_type : pdcch_grant_type_t
  deriving DecidableEq, Repr

/-- The per-slot, per-CORESET allocator state, from `class coreset_region`.
The CORESET configuration (`duration`, `nof_freq_res`) is fixed at
construction.  The candidate-location tables are external (the header holds
references into the BWP configuration); operations take them as a pure
lookup argument `alloc_record → List Nat`. -/
structure coreset_region where
  duration : Nat
  nof_freq_res : Nat
  dci_list : List alloc_record
  dfs_tree : List tree_node
  pdcch_dl_list : List pdcch_t
  pdcch_ul_list : List pdcch_t
  deriving DecidableEq, Repr

/-- Construction: configuration supplied, all sequences empty. -/
def coreset_region.init (duration nof_freq_res : Nat) : coreset_region :=
  ⟨duration, nof_freq_res, [], [], [], []⟩

/-- Accessor, from the header: `get_td_symbols() { return coreset_cfg->duration; }` -/
def coreset_region.get_td_symbols (s : coreset_region) : Nat := s.duration

/-- Accessor, from the header: `get_freq_resources() { return nof_freq_res; }` -/
def coreset_region.get_freq_resources (s : coreset_region) : Nat := s.nof_freq_res

/-- Accessor, from the header: `nof_cces() { return nof_freq_res * get_td_symbols(); }` -/
def coreset_region.nof_cces (s : coreset_region) : Nat :=
  s.nof_freq_res * s.get_td_symbols

/-- Accessor, from the header: `nof_allocs() { return dfs_tree.size(); }` -/
def coreset_region.nof_allocs (s : coreset_region) : Nat := s.dfs_tree.length

/-- Number of CCEs consumed by one grant at aggregation index `a`
(aggregation level `2^a`). -/
def aggr_size (aggr_idx : Nat) : Nat := 2 ^ aggr_idx

/-- Incremental CCE mask of a candidate starting at CCE `ncce` with
aggregation index `a`: bits `ncce .. ncce + 2^a - 1`. -/
def cand_mask (aggr_idx ncce : Nat) : Nat :=
  (2 ^ aggr_size aggr_idx - 1) * 2 ^ ncce

/-- Modelled from the spec: a candidate is admissible when its CCE footprint
lies inside the fixed-capacity occupancy mask (`ncce + 2^a ≤ nof_cces`) and
does not intersect the cumulative mask of the current tree tip. -/
def cand_ok (nof_cces aggr_idx ncce total : Nat) : Bool :=
  decide (ncce + aggr_size aggr_idx ≤ nof_cces) &&
    (cand_mask aggr_idx ncce &&& total == 0)

/-- Decision-tree node committed for record `r` when candidate number `i`
(CCE start `ncce`) is chosen on top of cumulative mask `total`. -/
def mk_tree_node (r : alloc_record) (i ncce total : Nat) : tree_node :=
  { rnti := r.ue.getD SRSRAN_INVALID_RNTI
    record_idx := r.idx
    dci_pos_idx := i
    dci_pos := ⟨r.aggr_idx, ncce⟩
    current_mask := cand_mask r.aggr_idx ncce
    total_mask := total ||| cand_mask r.aggr_idx ncce }

/-- Cumulative mask at the tip of a reversed decision tree (head of the
reversed list is the most recent node); an empty tree has mask `0`. -/
def tip_total : List tree_node → Nat
  | [] => 0
  | n :: _ => n.total_mask

/-- Modelled from the spec: first-fit scan of one candidate list for record
`r`, in provider-list order, starting at candidate number `i` (the loop
upper bound is carried as the explicit counter `left = l.length - i`).  A
candidate is committed only if the continuation `k` manages to place all
deeper grants on top of the extended mask; otherwise the scan advances to
the next candidate — this is the backtracking within one depth. -/
def alloc_dfs_scan (N : Nat) (r : alloc_record) (l : List Nat) (total : Nat)
    (k : Nat → Option (List tree_node)) : Nat → Nat → Option (List tree_node)
  | _, 0 => none
  | i, left + 1 =>
    let c := l.getD i 0
    if cand_ok N r.aggr_idx c total then
      match k (total ||| cand_mask r.aggr_idx c) with
      | some ns => some (mk_tree_node r i c total :: ns)
      | none => alloc_dfs_scan N r l total k (i + 1) left
    else alloc_dfs_scan N r l total k (i + 1) left

/-- Modelled from the spec: depth-first forward placement of a list of
pending grants (each paired with the candidate number to start scanning
from) on top of cumulative mask `total`.  Candidates are tried strictly in
provider-list order at every depth; failure at a depth advances the
previous depth (inside `alloc_dfs_scan`). -/
def alloc_dfs (N : Nat) (p : alloc_record → List Nat) :
    List (alloc_record × Nat) → Nat → Option (List tree_node)
  | [], _ => some []
  | (r, st) :: rest, total =>
    alloc_dfs_scan N r (p r) total (fun t2 => alloc_dfs N p rest t2) st
      ((p r).length - st)

/-- Modelled from the spec: the backtracking search continuation.  The
reversed committed tree is peeled from its tip: first try to place the
pending grants on top of the whole tree; if that fails, pop the most recent
node, advance its candidate cursor by one, and retry with that grant (and
everything deeper, restarted at candidate 0) pending; the search fails when
the tree is exhausted at depth zero. -/
def get_next_dfs_search (N : Nat) (p : alloc_record → List Nat)
    (dl : List alloc_record) :
    List tree_node → List (alloc_record × Nat) → Option (List tree_node)
  | [], pend => alloc_dfs N p pend 0
  | top :: rest, pend =>
    match alloc_dfs N p pend top.total_mask with
    | some ns => some ((top :: rest).reverse ++ ns)
    | none =>
      get_next_dfs_search N p dl rest
        ((dl.getD top.record_idx default, top.dci_pos_idx + 1) ::
          pend.map (fun q => (q.1, 0)))

/-- The allocation record `alloc_dci` builds for a call: its `idx` is the
current length of the record sequence. -/
def alloc_dci_record (alloc_type : pdcch_grant_type_t)
    (aggr_idx search_space_id : Nat) (user : Option Nat) (s : coreset_region) :
    alloc_record :=
  { aggr_idx := aggr_idx, ss_id := search_space_id, idx := s.dci_list.length,
    alloc_type := alloc_type, ue := user }

/-- The output-list entry for a committed allocation: the chosen location
is the one of the new (deepest) tree node. -/
def alloc_dci_grant (alloc_type : pdcch_grant_type_t) (user : Option Nat)
    (t : List tree_node) : pdcch_t :=
  { rnti := user.getD SRSRAN_INVALID_RNTI
    dci_pos := ((t.getLast?).map (fun n => n.dci_pos)).getD ⟨0, 0⟩
    alloc_type := alloc_type }

/-- Modelled from the spec: `alloc_dci`.  Builds the allocation record,
runs the backtracking search; on success appends the record, installs the
new tree and appends the chosen placement to the downlink or uplink output
list; on overall failure restores the saved tree and leaves the region
unchanged, returning false. -/
def coreset_region.alloc_dci (p : alloc_record → List Nat)
    (alloc_type : pdcch_grant_type_t) (aggr_idx search_space_id : Nat)
    (user : Option Nat) (s : coreset_region) : Bool × coreset_region :=
  match get_next_dfs_search s.nof_cces p s.dci_list s.dfs_tree.reverse
      [(alloc_dci_record alloc_type aggr_idx search_space_id user s, 0)] with
  | some t =>
    (true,
      { s with
        dci_list := s.dci_list ++ [alloc_dci_record alloc_type aggr_idx search_space_id user s]
        dfs_tree := t
        pdcch_dl_list :=
          if alloc_type = pdcch_grant_type_t.ul_data then s.pdcch_dl_list
          else s.pdcch_dl_list ++ [alloc_dci_grant alloc_type user t]
        pdcch_ul_list :=
          if alloc_type = pdcch_grant_type_t.ul_data then
            s.pdcch_ul_list ++ [alloc_dci_grant alloc_type user t]
          else s.pdcch_ul_list })
  | none => (false, { s with dfs_tree := s.dfs_tree })

/-- Modelled from the spec: `rem_last_dci` removes the most recently
committed allocation record and decision-tree node. -/
def coreset_region.rem_last_dci (s : coreset_region) : coreset_region :=
  { s with dci_list := s.dci_list.dropLast, dfs_tree := s.dfs_tree.dropLast }

/-- Modelled from the spec: `reset` clears the allocation-record sequence
and the decision tree for reuse on the next slot. -/
def coreset_region.reset (s : coreset_region) : coreset_region :=
  { s with dci_list := [], dfs_tree := [] }

/-- The occupancy mask of a region: the cumulative mask carried by the most
recent decision-tree node (the mask is derived from the tree, never stored
independently). -/
def coreset_region.occupancy_mask (s : coreset_region) : Nat :=
  tip_total s.dfs_tree.reverse

/-- One external call on a `coreset_region`. -/
inductive sched_op
  | alloc (alloc_type : pdcch_grant_type_t) (aggr_idx ss_id : Nat) (user : Option Nat)
  | rem
  | reset
  deriving Repr

def coreset_region.run_op (p : alloc_record → List Nat) (s : coreset_region) :
    sched_op → coreset_region
  | sched_op.alloc ty a ss ue => (s.alloc_dci p ty a ss ue).2
  | sched_op.rem => s.rem_last_dci
  | sched_op.reset => s.reset

def coreset_region.run_ops (p : alloc_record → List Nat) (s : coreset_region) :
    List sched_op → coreset_region
  | [] => s
  | op :: ops => (s.run_op p op).run_ops p ops

/-- Run a sequence of calls recording, besides the final state, the boolean
outcome of every `alloc_dci` call in order. -/
def coreset_region.run_trace (p : alloc_record → List Nat) (s : coreset_region) :
    List sched_op → coreset_region × List Bool
  | [] => (s, [])
  | sched_op.alloc ty a ss ue :: ops =>
    let r := s.alloc_dci p ty a ss ue
    let q := r.2.run_trace p ops
    (q.1, r.1 :: q.2)
  | op :: ops => ((s.run_op p op).run_trace p ops : coreset_region × List Bool)

/-- Run a sequence of `alloc_dci` calls, also reporting whether every call
in the sequence succeeded. -/
def coreset_region.run_allocs (p : alloc_record → List Nat) (s : coreset_region) :
    List (pdcch_grant_type_t × Nat × Nat × Option Nat) → coreset_region × Bool
  | [] => (s, true)
  | (ty, a, ss, ue) :: rest =>
    let r := s.alloc_dci p ty a ss ue
    let q := r.2.run_allocs p rest
    (q.1, r.1 && q.2)

/-! ## Specification predicates -/

/-- The decision-tree mask invariant: walking the tree from depth 0 with
accumulator `acc` (initially 0), every node satisfies
`total_mask = acc ||| current_mask` and `current_mask &&& acc = 0`. -/
def mask_chained : Nat → List tree_node → Bool
  | _, [] => true
  | acc, n :: rest =>
    (n.total_mask == acc ||| n.current_mask) && (n.current_mask &&& acc == 0) &&
      mask_chained n.total_mask rest

/-- Pairwise disjointness of a list of bitmasks. -/
def masks_pairwise_disjoint : List Nat → Bool
  | [] => true
  | m :: ms => ms.all (fun m2 => m &&& m2 == 0) && masks_pairwise_disjoint ms

/-- Alignment of one decision-tree node with its allocation record at
depth `k` on top of accumulated mask `acc`: it belongs to record `k`, its
candidate number is in range in the provider list, its location and masks
are the ones computed from the candidate, and the candidate is admissible
on top of `acc`. -/
def node_matches (N : Nat) (p : alloc_record → List Nat)
    (r : alloc_record) (n : tree_node) (k acc : Nat) : Bool :=
  (n.record_idx == k) && (r.idx == k) &&
  (n.rnti == r.ue.getD SRSRAN_INVALID_RNTI) &&
  (n.dci_pos.L == r.aggr_idx) &&
  decide (n.dci_pos_idx < (p r).length) &&
  ((p r).getD n.dci_pos_idx 0 == n.dci_pos.ncce) &&
  cand_ok N r.aggr_idx n.dci_pos.ncce acc &&
  (n.current_mask == cand_mask r.aggr_idx n.dci_pos.ncce) &&
  (n.total_mask == acc ||| n.current_mask)

/-- Alignment of a decision tree with its allocation records, node by node
from depth `k` on top of accumulated mask `acc`. -/
def tree_matches (N : Nat) (p : alloc_record → List Nat) :
    List alloc_record → List tree_node → Nat → Nat → Bool
  | [], [], _, _ => true
  | r :: rs, n :: ns, k, acc =>
    node_matches N p r n k acc && tree_matches N p rs ns (k + 1) n.total_mask
  | _, _, _, _ => false

/-- Cumulative mask after a run of tree nodes starting from accumulator
`acc`: the `total_mask` of the last node, or `acc` for an empty run. -/
def last_total (acc : Nat) : List tree_node → Nat
  | [] => acc
  | n :: ns => last_total n.total_mask ns

/-- Do the records of a list carry consecutive `idx` fields from `k` on? -/
def recs_idx_from : Nat → List alloc_record → Bool
  | _, [] => true
  | k, r :: rs => (r.idx == k) && recs_idx_from (k + 1) rs

/-- The candidate cursors (chosen candidate numbers) along a tree. -/
def cursors (t : List tree_node) : List Nat := t.map (fun n => n.dci_pos_idx)

/-- Feasibility of a joint choice vector for a list of pending grants on
top of cumulative mask `total`: each grant picks candidate number `i` at
least its start cursor, in range of its provider list, admissible on top of
everything chosen before it. -/
def pend_feasible (N : Nat) (p : alloc_record → List Nat) :
    List (alloc_record × Nat) → Nat → List Nat → Bool
  | [], _, [] => true
  | (r, st) :: rest, total, i :: is =>
    decide (st ≤ i) && decide (i < (p r).length) &&
    cand_ok N r.aggr_idx ((p r).getD i 0) total &&
    pend_feasible N p rest (total ||| cand_mask r.aggr_idx ((p r).getD i 0)) is
  | _, _, _ => false

/-- Pending list of a record sequence with all start cursors at 0. -/
def as_pend (recs : List alloc_record) : List (alloc_record × Nat) :=
  recs.map (fun r => (r, 0))

/-- A joint assignment of non-overlapping admissible candidates, one per
record, drawn from the provider candidate lists. -/
def Feasible (N : Nat) (p : alloc_record → List Nat)
    (recs : List alloc_record) (is : List Nat) : Bool :=
  pend_feasible N p (as_pend recs) 0 is

/-- Lexicographic order on candidate-choice vectors (first-fit order: the
search visits vectors in increasing `lexLE` order). -/
def lexLE : List Nat → List Nat → Bool
  | [], _ => true
  | _ :: _, [] => false
  | a :: as, b :: bs => decide (a < b) || ((a == b) && lexLE as bs)

/-- Nodes committed when a pending list takes the choice vector `is` on top
of cumulative mask `total`. -/
def build_nodes (p : alloc_record → List Nat) :
    List (alloc_record × Nat) → List Nat → Nat → List tree_node
  | (r, _) :: ps, i :: is, total =>
    mk_tree_node r i ((p r).getD i 0) total ::
      build_nodes p ps is (total ||| cand_mask r.aggr_idx ((p r).getD i 0))
  | _, _, _ => []

/-- Cumulative mask accumulated when the given records take the given
candidate numbers, starting from `total`. -/
def pend_accum (p : alloc_record → List Nat) :
    List (alloc_record × Nat) → List Nat → Nat → Nat
  | (r, _) :: ps, i :: is, total =>
    pend_accum p ps is (total ||| cand_mask r.aggr_idx ((p r).getD i 0))
  | _, _, total => total

/-- Well-formedness of a region state relative to the provider tables: the
decision tree is aligned with the record sequence. -/
def coreset_wf (p : alloc_record → List Nat) (s : coreset_region) : Bool :=
  tree_matches s.nof_cces p s.dci_list s.dfs_tree 0 0

/-- The committed tree is the first-fit (lexicographically least) joint
assignment among all feasible assignments of the committed records. -/
def coreset_minimal (p : alloc_record → List Nat) (s : coreset_region) : Prop :=
  ∀ vs, Feasible s.nof_cces p s.dci_list vs = true →
    lexLE (cursors s.dfs_tree) vs = true

/-- The set of choice vectors explored by the backtracking continuation
`get_next_dfs_search` from a given reversed tree and pending list: either
keep the whole committed tree and place the pending grants on top of it
(feasibly), or pop the tip node, advance its cursor, and explore from
there. -/
inductive explored_sol (N : Nat) (p : alloc_record → List Nat)
    (dl : List alloc_record) :
    List tree_node → List (alloc_record × Nat) → List Nat → Prop
  | keep {revtree pend ws} :
    pend_feasible N p pend (tip_total revtree) ws = true →
    explored_sol N p dl revtree pend (cursors revtree.reverse ++ ws)
  | pop {top rest pend vs} :
    explored_sol N p dl rest
      ((dl.getD top.record_idx default, top.dci_pos_idx + 1) ::
        pend.map (fun q => (q.1, 0))) vs →
    explored_sol N p dl (top :: rest) pend vs

/-! ## Cost model (candidate placements examined) -/

/-- Number of candidate placements examined by `alloc_dfs_scan`: one per
candidate tested at this depth, plus the work of the continuation at every
admissible candidate (`kc` is the cost of the continuation). -/
def alloc_dfs_scan_count (N : Nat) (r : alloc_record) (l : List Nat) (total : Nat)
    (k : Nat → Option (List tree_node)) (kc : Nat → Nat) : Nat → Nat → Nat
  | _, 0 => 0
  | i, left + 1 =>
    let c := l.getD i 0
    if cand_ok N r.aggr_idx c total then
      match k (total ||| cand_mask r.aggr_idx c) with
      | some _ => 1 + kc (total ||| cand_mask r.aggr_idx c)
      | none =>
        1 + kc (total ||| cand_mask r.aggr_idx c) +
          alloc_dfs_scan_count N r l total k kc (i + 1) left
    else 1 + alloc_dfs_scan_count N r l total k kc (i + 1) left

/-- Number of candidate placements examined by `alloc_dfs`. -/
def alloc_dfs_count (N : Nat) (p : alloc_record → List Nat) :
    List (alloc_record × Nat) → Nat → Nat
  | [], _ => 0
  | (r, st) :: rest, total =>
    alloc_dfs_scan_count N r (p r) total (fun t2 => alloc_dfs N p rest t2)
      (fun t2 => alloc_dfs_count N p rest t2) st ((p r).length - st)

/-- Number of candidate placements examined by the whole backtracking
continuation. -/
def get_next_dfs_count (N : Nat) (p : alloc_record → List Nat)
    (dl : List alloc_record) : List tree_node → List (alloc_record × Nat) → Nat
  | [], pend => alloc_dfs_count N p pend 0
  | top :: rest, pend =>
    alloc_dfs_count N p pend top.total_mask +
      match alloc_dfs N p pend top.total_mask with
      | some _ => 0
      | none =>
        get_next_dfs_count N p dl rest
          ((dl.getD top.record_idx default, top.dci_pos_idx + 1) ::
            pend.map (fun q => (q.1, 0)))

/-- Number of candidate placements one `alloc_dci` call examines. -/
def coreset_region.alloc_dci_examined (p : alloc_record → List Nat)
    (alloc_type : pdcch_grant_type_t) (aggr_idx search_space_id : Nat)
    (user : Option Nat) (s : coreset_region) : Nat :=
  get_next_dfs_count s.nof_cces p s.dci_list s.dfs_tree.reverse
    [(alloc_dci_record alloc_type aggr_idx search_space_id user s, 0)]

/-- Search-space size of a pending list: a bound on the placements
`alloc_dfs` can examine on it. -/
def pend_bound (p : alloc_record → List Nat) : List (alloc_record × Nat) → Nat
  | [] => 0
  | (r, st) :: rest => ((p r).length - st) * (1 + pend_bound p rest)

/-- Records the backtracking continuation may pop, read back from the
reversed tree through the record sequence. -/
def rev_recs (dl : List alloc_record) (revtree : List tree_node) :
    List alloc_record :=
  revtree.map (fun n => dl.getD n.record_idx default)

/-- Product, over a record sequence, of (candidate-list length + 1). -/
def cand_factors (p : alloc_record → List Nat) (recs : List alloc_record) : Nat :=
  (recs.map (fun r => (p r).length + 1)).prod

/-! ## Concrete scenarios -/

/-- Candidate tables for a 4-CCE scenario: search space 0 offers the
single-CCE candidates 0 and 2; every other search space offers only CCE 0. -/
def provider_a : alloc_record → List Nat :=
  fun r => if r.ss_id = 0 then [0, 2] else [0]

/-- State after one committed single-CCE grant at CCE 0 in a 4-CCE
CORESET. -/
def scenario_a_s1 : coreset_region :=
  ((coreset_region.init 1 4).alloc_dci provider_a pdcch_grant_type_t.dl_data
    0 0 (some 1)).2

/-- Outcome of then allocating a 2-CCE grant whose only candidate is CCE 0:
the search backtracks the first grant to CCE 2 and commits both. -/
def scenario_a_s2 : Bool × coreset_region :=
  scenario_a_s1.alloc_dci provider_a pdcch_grant_type_t.dl_data 1 1 (some 2)

/-- Candidate tables for a 4-CCE scenario used against the as-stated search
completeness claim: search space 0 offers single-CCE candidates 0 and 2,
search space 1 offers only the 2-CCE candidate at 0, search space 2 offers
only the 2-CCE candidate at 2. -/
def provider_b : alloc_record → List Nat :=
  fun r => if r.ss_id = 0 then [0, 2] else if r.ss_id = 1 then [0] else [2]

/-- A state reached by: committing grant A (1 CCE, candidates 0 and 2),
committing grant B (2 CCEs at 0, which backtracks A to CCE 2), then undoing
B with `rem_last_dci`.  A is left on CCE 2 although its candidate 0 is
free. -/
def scenario_b_s3 : coreset_region :=
  (((coreset_region.init 1 4).alloc_dci provider_b pdcch_grant_type_t.dl_data
      0 0 (some 1)).2.alloc_dci provider_b pdcch_grant_type_t.dl_data
      1 1 (some 2)).2.rem_last_dci

/-- Candidate tables for a 16-CCE cost scenario: search spaces 0..7 each
offer two disjoint single-CCE candidates; search space 8 offers one
candidate covering all 16 CCEs. -/
def provider_c : alloc_record → List Nat :=
  fun r => if r.ss_id < 8 then [2 * r.ss_id, 2 * r.ss_id + 1] else [0]

/-- Eight single-CCE grants on disjoint CCE pairs. -/
def scenario_c_calls : List (pdcch_grant_type_t × Nat × Nat × Option Nat) :=
  (List.range 8).map (fun j => (pdcch_grant_type_t.dl_data, 0, j, some j))

/-- State with the eight grants of `scenario_c_calls` committed in a
16-CCE CORESET. -/
def scenario_c_state : coreset_region :=
  ((coreset_region.init 1 16).run_allocs provider_c scenario_c_calls).1

/-! ## Storage declarations (from the header member types) -/

/-- Kind of storage a container member is declared with. -/
inductive storage_kind
  | fixedCapacity (cap : Nat)
  | dynamicHeap
  deriving DecidableEq, Repr

/-- From the header: `srsran::bounded_vector<alloc_record, 2 * MAX_GRANTS>
dci_list;` — pre-sized storage of fixed capacity `2 * MAX_GRANTS`. -/
def dci_list_storage (MAX_GRANTS : Nat) : storage_kind :=
  storage_kind.fixedCapacity (2 * MAX_GRANTS)

/-- From the header: `using alloc_tree_dfs_t = std::vector<tree_node>;
alloc_tree_dfs_t dfs_tree, saved_dfs_tree;` — dynamically heap-allocated
vectors, not pre-sized fixed-capacity storage. -/
def dfs_tree_storage : storage_kind := storage_kind.dynamicHeap

/-- Storage of the saved snapshot `saved_dfs_tree` (same declared type as
`dfs_tree`). -/
def saved_dfs_tree_storage : storage_kind := dfs_tree_storage

/-! ## Theorems -/

theorem coreset_region.eta (s : coreset_region) :
    ({ s with dfs_tree := s.dfs_tree } : coreset_region) = s := rfl

theorem alloc_dci_failure_unchanged (p : alloc_record → List Nat)
    (ty : pdcch_grant_type_t) (a ss : Nat) (ue : Option Nat) (s : coreset_region)
    (h : (s.alloc_dci p ty a ss ue).1 = false) :
    (s.alloc_dci p ty a ss ue).2 = s := by
  unfold coreset_region.alloc_dci at h ⊢
  cases hm : get_next_dfs_search s.nof_cces p s.dci_list s.dfs_tree.reverse
      [(alloc_dci_record ty a ss ue s, 0)] with
  | some t => rw [hm] at h; simp at h
  | none => rfl

/-- C2: atomicity on failure — for every state of a `coreset_region` and
every argument tuple, if `alloc_dci` returns false then the whole state
(record sequence, decision tree, hence `nof_allocs()`, occupancy masks and
both output grant lists) is exactly the state before the call. -/
theorem c2_alloc_dci_failure_atomic (p : alloc_record → List Nat)
    (ty : pdcch_grant_type_t) (a ss : Nat) (ue : Option Nat) (s : coreset_region)
    (h : (s.alloc_dci p ty a ss ue).1 = false) :
    (s.alloc_dci p ty a ss ue).2 = s :=
  alloc_dci_failure_unchanged p ty a ss ue s h

/-- Witness for C2 at a concrete input: a region with no candidates rejects
the allocation and is left untouched. -/
theorem c2_alloc_dci_failure_atomic_witness :
    ((coreset_region.init 1 2).alloc_dci (fun _ => []) pdcch_grant_type_t.sib 0 0 none).2 =
      coreset_region.init 1 2 :=
  c2_alloc_dci_failure_atomic (fun _ => []) pdcch_grant_type_t.sib 0 0 none
    (coreset_region.init 1 2) (by decide)

/-- C10 (code bug): in the source, `clear()` sets `head = nullptr` but does
not reset `count`; after `push` followed by `clear` the stack is empty
(`is_empty() == true` and `try_pop()` returns null leaving the stack
unchanged) yet `size()` still returns 1, so `is_empty()` and `size() == 0`
disagree. -/
theorem c10_clear_count_bug :
    ((memblock_stack.new.push 100).clear.is_empty = true) ∧
    ((memblock_stack.new.push 100).clear.size = 1) ∧
    ((memblock_stack.new.push 100).clear.try_pop =
      (none, (memblock_stack.new.push 100).clear)) := by
  decide

/-- C8 counterexample: the decision tree and its saved snapshot are
declared `std::vector<tree_node>` in the header, i.e. dynamically
heap-allocated storage — not pre-sized fixed-capacity storage of
`2 * MAX_GRANTS` entries (instantiated here at `MAX_GRANTS = 64`). -/
theorem c8_counterexample :
    dfs_tree_storage ≠ storage_kind.fixedCapacity (2 * 64) ∧
    saved_dfs_tree_storage ≠ storage_kind.fixedCapacity (2 * 64) := by
  decide

theorem cand_ok_zero_cces (a c total : Nat) : cand_ok 0 a c total = false := by
  unfold cand_ok aggr_size
  have h2 : 0 < 2 ^ a := pow_pos (by norm_num) a
  have h3 : ¬ (c + 2 ^ a ≤ 0) := by omega
  simp [h3]

theorem alloc_dfs_scan_zero_cces (r : alloc_record) (l : List Nat) (total : Nat)
    (k : Nat → Option (List tree_node)) :
    ∀ left i, alloc_dfs_scan 0 r l total k i left = none := by
  intro left
  induction left with
  | zero => intro i; rfl
  | succ m ih =>
    intro i
    simp [alloc_dfs_scan, cand_ok_zero_cces, ih]

theorem alloc_dfs_zero_cces (p : alloc_record → List Nat) (r : alloc_record)
    (st : Nat) (rest : List (alloc_record × Nat)) (total : Nat) :
    alloc_dfs 0 p ((r, st) :: rest) total = none := by
  simp [alloc_dfs, alloc_dfs_scan_zero_cces]

theorem get_next_dfs_search_zero_cces (p : alloc_record → List Nat)
    (dl : List alloc_record) :
    ∀ (revtree : List tree_node) (r : alloc_record) (st : Nat)
      (pend : List (alloc_record × Nat)),
      get_next_dfs_search 0 p dl revtree ((r, st) :: pend) = none := by
  intro revtree
  induction revtree with
  | nil =>
    intro r st pend
    simp [get_next_dfs_search, alloc_dfs_zero_cces]
  | cons top rest ih =>
    intro r st pend
    simp [get_next_dfs_search, alloc_dfs_zero_cces, ih]

/-- C7: zero-capacity configuration — whenever the configuration yields
`nof_cces() = 0` (zero frequency resources or zero duration), every
`alloc_dci` call returns false; the model is a total function returning a
boolean, so no distinct error signal exists for this condition. -/
theorem c7_zero_capacity_always_false (p : alloc_record → List Nat)
    (ty : pdcch_grant_type_t) (a ss : Nat) (ue : Option Nat) (s : coreset_region)
    (h : s.nof_cces = 0) : (s.alloc_dci p ty a ss ue).1 = false := by
  unfold coreset_region.alloc_dci
  rw [h, get_next_dfs_search_zero_cces]

/-- Witness for C7 at a concrete input: a CORESET with zero duration (and
a provider that does offer candidates) rejects every allocation. -/
theorem c7_zero_capacity_always_false_witness :
    ((coreset_region.init 0 5).alloc_dci (fun _ => [0, 1, 2])
      pdcch_grant_type_t.dl_data 0 1 (some 70)).1 = false :=
  c7_zero_capacity_always_false (fun _ => [0, 1, 2]) pdcch_grant_type_t.dl_data 0 1
    (some 70) (coreset_region.init 0 5) (by decide)

theorem run_op_preserves_cfg (p : alloc_record → List Nat) (s : coreset_region)
    (op : sched_op) :
    (s.run_op p op).duration = s.duration ∧
      (s.run_op p op).nof_freq_res = s.nof_freq_res := by
  cases op with
  | alloc ty a ss ue =>
    dsimp only [coreset_region.run_op]
    unfold coreset_region.alloc_dci
    cases hm : get_next_dfs_search s.nof_cces p s.dci_list s.dfs_tree.reverse
        [(alloc_dci_record ty a ss ue s, 0)] with
    | some t => exact ⟨rfl, rfl⟩
    | none => exact ⟨rfl, rfl⟩
  | rem => exact ⟨rfl, rfl⟩
  | reset => exact ⟨rfl, rfl⟩

theorem run_ops_preserves_cfg (p : alloc_record → List Nat) :
    ∀ (ops : List sched_op) (s : coreset_region),
      (s.run_ops p ops).duration = s.duration ∧
        (s.run_ops p ops).nof_freq_res = s.nof_freq_res := by
  intro ops
  induction ops with
  | nil => intro s; exact ⟨rfl, rfl⟩
  | cons op rest ih =>
    intro s
    have h1 := run_op_preserves_cfg p s op
    have h2 := ih (s.run_op p op)
    exact ⟨h2.1.trans h1.1, h2.2.trans h1.2⟩

/-- C9: accessor correctness and purity — `nof_cces()` equals
`get_freq_resources() * get_td_symbols()` in every state; the configuration
it reads is fixed at construction and never mutated by any sequence of
`reset` / `alloc_dci` / `rem_last_dci` calls; the accessors are pure
functions of the state (they take the region and return a number, mutating
nothing). -/
theorem c9_accessors (s : coreset_region) :
    s.nof_cces = s.get_freq_resources * s.get_td_symbols ∧
      (∀ (p : alloc_record → List Nat) (ops : List sched_op),
        (s.run_ops p ops).nof_cces = s.nof_cces ∧
          (s.run_ops p ops).get_td_symbols = s.get_td_symbols ∧
          (s.run_ops p ops).get_freq_resources = s.get_freq_resources) := by
  refine ⟨rfl, ?_⟩
  intro p ops
  have h := run_ops_preserves_cfg p ops s
  unfold coreset_region.nof_cces coreset_region.get_td_symbols
    coreset_region.get_freq_resources
  rw [h.1, h.2]
  exact ⟨rfl, rfl, rfl⟩

/-- C4: determinism — the outcome of a sequence of calls (every boolean
result and the final state, output lists included) is a function of the
call sequence, the configuration and the candidate tables; moreover an
`alloc_dci` after `reset()` behaves exactly like the first call on a
freshly constructed region with the same configuration and tables: same
boolean, same chosen tree (hence same CCE position) and same record
sequence. -/
theorem c4_determinism (d f : Nat) (p : alloc_record → List Nat)
    (ops1 ops2 : List sched_op) (h : ops1 = ops2) :
    (coreset_region.init d f).run_trace p ops1 =
        (coreset_region.init d f).run_trace p ops2 ∧
      (∀ (ty : pdcch_grant_type_t) (a ss : Nat) (ue : Option Nat)
          (s : coreset_region), s.duration = d → s.nof_freq_res = f →
        ((s.reset).alloc_dci p ty a ss ue).1 =
            ((coreset_region.init d f).alloc_dci p ty a ss ue).1 ∧
          ((s.reset).alloc_dci p ty a ss ue).2.dfs_tree =
            ((coreset_region.init d f).alloc_dci p ty a ss ue).2.dfs_tree ∧
          ((s.reset).alloc_dci p ty a ss ue).2.dci_list =
            ((coreset_region.init d f).alloc_dci p ty a ss ue).2.dci_list) := by
  constructor
  · rw [h]
  · intro ty a ss ue s hd hf
    subst hd hf
    unfold coreset_region.alloc_dci coreset_region.reset coreset_region.init
      alloc_dci_record coreset_region.nof_cces coreset_region.get_td_symbols
    cases hm : get_next_dfs_search (s.nof_freq_res * s.duration) p [] [].reverse
        [({ aggr_idx := a, ss_id := ss, idx := List.length [],
            alloc_type := ty, ue := ue }, 0)] with
    | some t => exact ⟨rfl, rfl, rfl⟩
    | none => exact ⟨rfl, rfl, rfl⟩

/-- Witness for C4 at a concrete input: identical traces on a concrete
configuration give identical outcomes, and the reset-replay property holds
on a used region. -/
theorem c4_determinism_witness :
    (coreset_region.init 1 2).run_trace (fun _ => [0, 1])
        [sched_op.alloc pdcch_grant_type_t.dl_data 0 0 (some 1)] =
      (coreset_region.init 1 2).run_trace (fun _ => [0, 1])
        [sched_op.alloc pdcch_grant_type_t.dl_data 0 0 (some 1)] :=
  (c4_determinism 1 2 (fun _ => [0, 1])
    [sched_op.alloc pdcch_grant_type_t.dl_data 0 0 (some 1)]
    [sched_op.alloc pdcch_grant_type_t.dl_data 0 0 (some 1)] rfl).1

theorem pend_feasible_length {N : Nat} {p : alloc_record → List Nat} :
    ∀ {pend : List (alloc_record × Nat)} {total : Nat} {vs : List Nat},
      pend_feasible N p pend total vs = true → vs.length = pend.length := by
  intro pend
  induction pend with
  | nil =>
    intro total vs h
    cases vs with
    | nil => rfl
    | cons v vs => simp [pend_feasible] at h
  | cons q rest ih =>
    intro total vs h
    obtain ⟨r, st⟩ := q
    cases vs with
    | nil => simp [pend_feasible] at h
    | cons v vs =>
      simp only [pend_feasible, Bool.and_eq_true] at h
      simp [ih h.2]

theorem alloc_dfs_scan_some {N : Nat} {r : alloc_record} {l : List Nat}
    {total : Nat} {k : Nat → Option (List tree_node)} :
    ∀ {left i : Nat} {ns : List tree_node},
      alloc_dfs_scan N r l total k i left = some ns →
      ∃ j ms, i ≤ j ∧ j < i + left ∧
        cand_ok N r.aggr_idx (l.getD j 0) total = true ∧
        k (total ||| cand_mask r.aggr_idx (l.getD j 0)) = some ms ∧
        ns = mk_tree_node r j (l.getD j 0) total :: ms := by
  intro left
  induction left with
  | zero => intro i ns h; exact absurd h (by simp [alloc_dfs_scan])
  | succ m ih =>
    intro i ns h
    simp only [alloc_dfs_scan] at h
    by_cases hc : cand_ok N r.aggr_idx (l.getD i 0) total = true
    · rw [if_pos hc] at h
      cases hk : k (total ||| cand_mask r.aggr_idx (l.getD i 0)) with
      | some ms =>
        rw [hk] at h
        refine ⟨i, ms, Nat.le_refl i, by omega, hc, hk, ?_⟩
        exact (Option.some_inj.mp h).symm
      | none =>
        rw [hk] at h
        obtain ⟨j, ms, h1, h2, h3, h4, h5⟩ := ih h
        exact ⟨j, ms, by omega, by omega, h3, h4, h5⟩
    · rw [if_neg hc] at h
      obtain ⟨j, ms, h1, h2, h3, h4, h5⟩ := ih h
      exact ⟨j, ms, by omega, by omega, h3, h4, h5⟩

theorem alloc_dfs_some_spec {N : Nat} {p : alloc_record → List Nat} :
    ∀ {pend : List (alloc_record × Nat)} {total : Nat} {ns : List tree_node},
      alloc_dfs N p pend total = some ns →
      pend_feasible N p pend total (cursors ns) = true ∧
        ns = build_nodes p pend (cursors ns) total := by
  intro pend
  induction pend with
  | nil =>
    intro total ns h
    simp only [alloc_dfs, Option.some_inj] at h
    subst h
    exact ⟨rfl, rfl⟩
  | cons q rest ih =>
    intro total ns h
    obtain ⟨r, st⟩ := q
    simp only [alloc_dfs] at h
    obtain ⟨j, ms, h1, h2, h3, h4, h5⟩ := alloc_dfs_scan_some h
    obtain ⟨hf, hb⟩ := ih h4
    subst h5
    have hjlen : j < (p r).length := by omega
    constructor
    · simp only [cursors, List.map_cons, pend_feasible, mk_tree_node,
        Bool.and_eq_true, decide_eq_true_eq]
      exact ⟨⟨⟨h1, hjlen⟩, h3⟩, hf⟩
    · simp only [cursors, List.map_cons, build_nodes]
      exact congrArg _ hb

theorem alloc_dfs_some_length {N : Nat} {p : alloc_record → List Nat}
    {pend : List (alloc_record × Nat)} {total : Nat} {ns : List tree_node}
    (h : alloc_dfs N p pend total = some ns) : ns.length = pend.length := by
  have hf := (alloc_dfs_some_spec h).1
  have := pend_feasible_length hf
  simpa [cursors] using this

theorem get_next_dfs_search_some_length {N : Nat} {p : alloc_record → List Nat}
    {dl : List alloc_record} :
    ∀ {revtree : List tree_node} {pend : List (alloc_record × Nat)}
      {t : List tree_node},
      get_next_dfs_search N p dl revtree pend = some t →
      t.length = revtree.length + pend.length := by
  intro revtree
  induction revtree with
  | nil =>
    intro pend t h
    rw [get_next_dfs_search] at h
    simpa using alloc_dfs_some_length h
  | cons top rest ih =>
    intro pend t h
    rw [get_next_dfs_search] at h
    cases hm : alloc_dfs N p pend top.total_mask with
    | some ns =>
      rw [hm] at h
      simp only [Option.some_inj] at h
      subst h
      have hn := alloc_dfs_some_length hm
      simp [hn]
      omega
    | none =>
      rw [hm] at h
      have ht := ih h
      simp only [List.length_cons, List.length_map] at ht
      simp only [List.length_cons]
      omega

theorem alloc_dci_true_shape {p : alloc_record → List Nat}
    {ty : pdcch_grant_type_t} {a ss : Nat} {ue : Option Nat} {s : coreset_region}
    (h : (s.alloc_dci p ty a ss ue).1 = true) :
    ∃ t, get_next_dfs_search s.nof_cces p s.dci_list s.dfs_tree.reverse
        [(alloc_dci_record ty a ss ue s, 0)] = some t ∧
      (s.alloc_dci p ty a ss ue).2.dfs_tree = t ∧
      (s.alloc_dci p ty a ss ue).2.dci_list =
        s.dci_list ++ [alloc_dci_record ty a ss ue s] ∧
      t.length = s.dfs_tree.length + 1 := by
  unfold coreset_region.alloc_dci at h ⊢
  cases hm : get_next_dfs_search s.nof_cces p s.dci_list s.dfs_tree.reverse
      [(alloc_dci_record ty a ss ue s, 0)] with
  | some t =>
    refine ⟨t, rfl, rfl, rfl, ?_⟩
    have := get_next_dfs_search_some_length hm
    simpa using this
  | none => rw [hm] at h; simp at h

theorem run_op_len_eq {p : alloc_record → List Nat} {s : coreset_region}
    (op : sched_op) (h : s.dfs_tree.length = s.dci_list.length) :
    (s.run_op p op).dfs_tree.length = (s.run_op p op).dci_list.length := by
  cases op with
  | alloc ty a ss ue =>
    dsimp only [coreset_region.run_op]
    cases hb : (s.alloc_dci p ty a ss ue).1 with
    | true =>
      obtain ⟨t, hm, htree, hlist, hlen⟩ := alloc_dci_true_shape hb
      rw [htree, hlist, hlen]
      simp [h]
    | false =>
      rw [alloc_dci_failure_unchanged p ty a ss ue s hb]
      exact h
  | rem =>
    dsimp only [coreset_region.run_op, coreset_region.rem_last_dci]
    simp [h]
  | reset => rfl

theorem run_ops_len_eq (p : alloc_record → List Nat) :
    ∀ (ops : List sched_op) (s : coreset_region),
      s.dfs_tree.length = s.dci_list.length →
      (s.run_ops p ops).dfs_tree.length = (s.run_ops p ops).dci_list.length := by
  intro ops
  induction ops with
  | nil => intro s h; exact h
  | cons op rest ih =>
    intro s h
    exact ih (s.run_op p op) (run_op_len_eq op h)

/-- C8 (amended): the allocation-record sequence is declared as a
pre-sized, fixed-capacity vector of `2 * MAX_GRANTS` entries
(`srsran::bounded_vector`); the decision tree and the saved snapshot are
declared as dynamically heap-allocated `std::vector`, NOT pre-sized
fixed-capacity storage; and in every reachable state the decision tree
holds exactly as many entries as the record sequence, so its entry count is
bounded by the record capacity. -/
theorem c8_amended_storage (MAX_GRANTS d f : Nat)
    (p : alloc_record → List Nat) (ops : List sched_op) :
    dci_list_storage MAX_GRANTS = storage_kind.fixedCapacity (2 * MAX_GRANTS) ∧
      dfs_tree_storage = storage_kind.dynamicHeap ∧
      saved_dfs_tree_storage = storage_kind.dynamicHeap ∧
      ((coreset_region.init d f).run_ops p ops).dfs_tree.length =
        ((coreset_region.init d f).run_ops p ops).dci_list.length :=
  ⟨rfl, rfl, rfl, run_ops_len_eq p ops (coreset_region.init d f) rfl⟩

/-- C5 counterexample: in a 4-CCE CORESET, after committing grant A
(single CCE, candidates 0 and 2, first-fit takes 0), a successful
`alloc_dci` of grant B (2 CCEs, only candidate 0) backtracks A to CCE 2;
`rem_last_dci` then restores the record sequence and `nof_allocs()`, but
the occupancy mask is 4 (A at CCE 2), not the pre-call mask 1 (A at CCE 0),
refuting exact mask restoration. -/
theorem c5_counterexample :
    scenario_a_s2.1 = true ∧
      scenario_a_s2.2.rem_last_dci.dci_list = scenario_a_s1.dci_list ∧
      scenario_a_s2.2.rem_last_dci.nof_allocs = scenario_a_s1.nof_allocs ∧
      scenario_a_s1.occupancy_mask = 1 ∧
      scenario_a_s2.2.rem_last_dci.occupancy_mask = 4 ∧
      scenario_a_s2.2.rem_last_dci.occupancy_mask ≠ scenario_a_s1.occupancy_mask := by
  decide

/-- C5 (amended): undo rolls back the record — for every state and every
successful `alloc_dci`, an immediate `rem_last_dci` restores the
allocation-record sequence and `nof_allocs()` exactly; the decision tree
(hence the occupancy mask) is restored exactly whenever the call committed
the new grant without re-placing earlier grants (in particular whenever the
forward placement on top of the existing tree succeeded); in general the
occupancy mask equals the cumulative mask of the remaining tree tip. -/
theorem c5_amended_undo (p : alloc_record → List Nat)
    (ty : pdcch_grant_type_t) (a ss : Nat) (ue : Option Nat) (s : coreset_region)
    (h : (s.alloc_dci p ty a ss ue).1 = true) :
    (s.alloc_dci p ty a ss ue).2.rem_last_dci.dci_list = s.dci_list ∧
      (s.alloc_dci p ty a ss ue).2.rem_last_dci.nof_allocs = s.nof_allocs ∧
      (∀ ns, alloc_dfs s.nof_cces p [(alloc_dci_record ty a ss ue s, 0)]
          (tip_total s.dfs_tree.reverse) = some ns →
        (s.alloc_dci p ty a ss ue).2.rem_last_dci.dfs_tree = s.dfs_tree) := by
  obtain ⟨t, hm, htree, hlist, hlen⟩ := alloc_dci_true_shape h
  refine ⟨?_, ?_, ?_⟩
  · unfold coreset_region.rem_last_dci
    rw [hlist]
    simp
  · unfold coreset_region.rem_last_dci coreset_region.nof_allocs
    rw [htree]
    simp [hlen]
  · intro ns hff
    unfold coreset_region.rem_last_dci
    rw [htree]
    have hcase : get_next_dfs_search s.nof_cces p s.dci_list s.dfs_tree.reverse
        [(alloc_dci_record ty a ss ue s, 0)] = some (s.dfs_tree.reverse.reverse ++ ns) := by
      cases hrev : s.dfs_tree.reverse with
      | nil =>
        rw [get_next_dfs_search]
        rw [hrev] at hff
        simp only [tip_total] at hff
        simpa using hff
      | cons top rest =>
        rw [get_next_dfs_search]
        rw [hrev] at hff
        simp only [tip_total] at hff
        rw [hff]
    rw [hm] at hcase
    have ht : t = s.dfs_tree.reverse.reverse ++ ns := Option.some_inj.mp hcase
    have hns : ns.length = 1 := alloc_dfs_some_length hff
    cases ns with
    | nil => simp at hns
    | cons n ns2 =>
      cases ns2 with
      | nil =>
        rw [ht]
        simp
      | cons m ms => simp at hns

/-- Witness for C5 amended: one committed single-CCE grant, then undo; the
forward placement succeeded, so records, count and the whole tree (hence
the occupancy mask) are restored. -/
theorem c5_amended_undo_witness :
    (((coreset_region.init 1 1).alloc_dci (fun _ => [0])
          pdcch_grant_type_t.sib 0 0 none).2.rem_last_dci.dci_list =
        (coreset_region.init 1 1).dci_list ∧
      ((coreset_region.init 1 1).alloc_dci (fun _ => [0])
          pdcch_grant_type_t.sib 0 0 none).2.rem_last_dci.nof_allocs =
        (coreset_region.init 1 1).nof_allocs ∧
      ∀ ns, alloc_dfs (coreset_region.init 1 1).nof_cces (fun _ => [0])
          [(alloc_dci_record pdcch_grant_type_t.sib 0 0 none (coreset_region.init 1 1), 0)]
          (tip_total (coreset_region.init 1 1).dfs_tree.reverse) = some ns →
        ((coreset_region.init 1 1).alloc_dci (fun _ => [0])
            pdcch_grant_type_t.sib 0 0 none).2.rem_last_dci.dfs_tree =
          (coreset_region.init 1 1).dfs_tree) :=
  c5_amended_undo (fun _ => [0]) pdcch_grant_type_t.sib 0 0 none
    (coreset_region.init 1 1) (by decide)

theorem nat_and_eq_zero_iff {a b : Nat} :
    a &&& b = 0 ↔ ∀ i, ¬(a.testBit i = true ∧ b.testBit i = true) := by
  constructor
  · intro h i hi
    have := congrArg (fun x => x.testBit i) h
    simp [Nat.testBit_and, hi.1, hi.2] at this
  · intro h
    apply Nat.eq_of_testBit_eq
    intro i
    simp only [Nat.testBit_and, Nat.zero_testBit]
    by_cases ha : a.testBit i = true
    · by_cases hb : b.testBit i = true
      · exact absurd ⟨ha, hb⟩ (h i)
      · simp [Bool.eq_false_iff.mpr hb]
    · simp [Bool.eq_false_iff.mpr ha]

theorem nat_and_or_eq_zero {a b c : Nat} (h : a &&& (b ||| c) = 0) :
    a &&& b = 0 ∧ a &&& c = 0 := by
  rw [nat_and_eq_zero_iff] at h
  constructor <;> rw [nat_and_eq_zero_iff] <;> intro i hi <;>
    exact h i ⟨hi.1, by simp [Nat.testBit_or, hi.2]⟩

theorem build_nodes_chained {N : Nat} {p : alloc_record → List Nat} :
    ∀ {pend : List (alloc_record × Nat)} {total : Nat} {vs : List Nat},
      pend_feasible N p pend total vs = true →
      mask_chained total (build_nodes p pend vs total) = true := by
  intro pend
  induction pend with
  | nil => intro total vs h; cases vs <;> simp [build_nodes, mask_chained]
  | cons q rest ih =>
    intro total vs h
    obtain ⟨r, st⟩ := q
    cases vs with
    | nil => simp [pend_feasible] at h
    | cons v vs =>
      simp only [pend_feasible, Bool.and_eq_true] at h
      obtain ⟨⟨⟨h1, h2⟩, h3⟩, h4⟩ := h
      have hok : cand_mask r.aggr_idx ((p r).getD v 0) &&& total = 0 := by
        unfold cand_ok at h3
        rw [Bool.and_eq_true] at h3
        exact beq_iff_eq.mp h3.2
      simp only [build_nodes, mask_chained, mk_tree_node, Bool.and_eq_true]
      refine ⟨⟨beq_self_eq_true _, ?_⟩, ih h4⟩
      rw [beq_iff_eq]
      exact hok

theorem mask_chained_append {acc : Nat} :
    ∀ {xs ys : List tree_node}, mask_chained acc xs = true →
      mask_chained (last_total acc xs) ys = true →
      mask_chained acc (xs ++ ys) = true := by
  intro xs
  induction xs generalizing acc with
  | nil => intro ys _ hy; simpa [last_total] using hy
  | cons x rest ih =>
    intro ys hx hy
    simp only [mask_chained, Bool.and_eq_true] at hx
    simp only [List.cons_append, mask_chained, Bool.and_eq_true]
    exact ⟨hx.1, ih hx.2 (by simpa [last_total] using hy)⟩

theorem mask_chained_of_append_left {acc : Nat} :
    ∀ {xs ys : List tree_node}, mask_chained acc (xs ++ ys) = true →
      mask_chained acc xs = true := by
  intro xs
  induction xs generalizing acc with
  | nil => intro ys _; rfl
  | cons x rest ih =>
    intro ys h
    simp only [List.cons_append, mask_chained, Bool.and_eq_true] at h
    simp only [mask_chained, Bool.and_eq_true]
    exact ⟨h.1, ih h.2⟩

theorem mask_chained_dropLast {acc : Nat} {xs : List tree_node}
    (h : mask_chained acc xs = true) : mask_chained acc xs.dropLast = true := by
  induction xs generalizing acc with
  | nil => rfl
  | cons x rest ih =>
    cases rest with
    | nil => rfl
    | cons y ys =>
      rw [mask_chained, Bool.and_eq_true] at h
      rw [List.dropLast_cons₂, mask_chained, Bool.and_eq_true]
      exact ⟨h.1, ih h.2⟩

theorem last_total_eq_getLast? :
    ∀ (xs : List tree_node) (a : Nat),
      last_total a xs = ((xs.getLast?.map (fun n => n.total_mask)).getD a) := by
  intro xs
  induction xs with
  | nil => intro a; rfl
  | cons x rest ih =>
    intro a
    cases rest with
    | nil => rfl
    | cons y ys =>
      rw [List.getLast?_cons_cons, ← ih a]
      rfl

theorem tip_total_reverse_eq_last_total :
    ∀ (xs : List tree_node), tip_total xs.reverse = last_total 0 xs := by
  intro xs
  rw [last_total_eq_getLast?]
  have h1 : tip_total xs.reverse =
      ((xs.reverse.head?.map (fun n => n.total_mask)).getD 0) := by
    cases xs.reverse <;> rfl
  rw [h1, List.head?_reverse]

theorem get_next_dfs_search_chained {N : Nat} {p : alloc_record → List Nat}
    {dl : List alloc_record} :
    ∀ {revtree : List tree_node} {pend : List (alloc_record × Nat)}
      {t : List tree_node},
      get_next_dfs_search N p dl revtree pend = some t →
      mask_chained 0 revtree.reverse = true →
      mask_chained 0 t = true := by
  intro revtree
  induction revtree with
  | nil =>
    intro pend t h _
    rw [get_next_dfs_search] at h
    obtain ⟨hf, hb⟩ := alloc_dfs_some_spec h
    rw [hb]
    exact build_nodes_chained hf
  | cons top rest ih =>
    intro pend t h hc
    rw [get_next_dfs_search] at h
    cases hm : alloc_dfs N p pend top.total_mask with
    | some ns =>
      rw [hm] at h
      simp only [Option.some_inj] at h
      subst h
      obtain ⟨hf, hb⟩ := alloc_dfs_some_spec hm
      have htip : top.total_mask = last_total 0 (top :: rest).reverse := by
        have := tip_total_reverse_eq_last_total (top :: rest).reverse
        simp only [List.reverse_reverse] at this
        rw [← this]
        rfl
      apply mask_chained_append hc
      rw [← htip, hb]
      exact build_nodes_chained hf
    | none =>
      rw [hm] at h
      apply ih h
      have : (top :: rest).reverse = rest.reverse ++ [top] := by simp
      rw [this] at hc
      exact mask_chained_of_append_left hc

theorem run_op_mask_chained {p : alloc_record → List Nat} {s : coreset_region}
    (op : sched_op) (h : mask_chained 0 s.dfs_tree = true) :
    mask_chained 0 (s.run_op p op).dfs_tree = true := by
  cases op with
  | alloc ty a ss ue =>
    dsimp only [coreset_region.run_op]
    cases hb : (s.alloc_dci p ty a ss ue).1 with
    | true =>
      obtain ⟨t, hm, htree, _, _⟩ := alloc_dci_true_shape hb
      rw [htree]
      exact get_next_dfs_search_chained hm (by simpa using h)
    | false => rw [alloc_dci_failure_unchanged p ty a ss ue s hb]; exact h
  | rem => exact mask_chained_dropLast h
  | reset => rfl

theorem run_ops_mask_chained (p : alloc_record → List Nat) :
    ∀ (ops : List sched_op) (s : coreset_region),
      mask_chained 0 s.dfs_tree = true →
      mask_chained 0 (s.run_ops p ops).dfs_tree = true := by
  intro ops
  induction ops with
  | nil => intro s h; exact h
  | cons op rest ih => intro s h; exact ih _ (run_op_mask_chained op h)

theorem mask_chained_every_disjoint {acc : Nat} :
    ∀ {xs : List tree_node}, mask_chained acc xs = true →
      ∀ y ∈ xs, y.current_mask &&& acc = 0 := by
  intro xs
  induction xs generalizing acc with
  | nil => intro _ y hy; simp at hy
  | cons x rest ih =>
    intro h y hy
    simp only [mask_chained, Bool.and_eq_true, beq_iff_eq] at h
    obtain ⟨⟨ht, hd⟩, hrest⟩ := h
    cases List.mem_cons.mp hy with
    | inl he => rw [he]; exact hd
    | inr he =>
      have := ih hrest y he
      rw [ht] at this
      exact (nat_and_or_eq_zero this).1

theorem mask_chained_pairwise {acc : Nat} :
    ∀ {xs : List tree_node}, mask_chained acc xs = true →
      masks_pairwise_disjoint (xs.map (fun n => n.current_mask)) = true := by
  intro xs
  induction xs generalizing acc with
  | nil => intro _; rfl
  | cons x rest ih =>
    intro h
    simp only [mask_chained, Bool.and_eq_true, beq_iff_eq] at h
    obtain ⟨⟨ht, _⟩, hrest⟩ := h
    simp only [List.map_cons, masks_pairwise_disjoint, Bool.and_eq_true]
    constructor
    · rw [List.all_eq_true]
      intro m hm
      obtain ⟨y, hy, hym⟩ := List.mem_map.mp hm
      have := mask_chained_every_disjoint hrest y hy
      rw [ht] at this
      have h2 := (nat_and_or_eq_zero this).2
      rw [← hym]
      simp [Nat.and_comm x.current_mask y.current_mask, h2]
    · exact ih hrest

/-- C1: collision-freedom — in every state reachable by any sequence of
`reset` / `alloc_dci` / `rem_last_dci` calls (in particular by successful
`alloc_dci` calls alone), the decision tree satisfies, at every depth,
`total_mask[i] = total_mask[i-1] ||| current_mask[i]` and
`current_mask[i] &&& total_mask[i-1] = 0` (with `total_mask[-1] = 0`), and
consequently the committed incremental CCE masks are pairwise disjoint. -/
theorem c1_collision_freedom (d f : Nat) (p : alloc_record → List Nat)
    (ops : List sched_op) :
    mask_chained 0 ((coreset_region.init d f).run_ops p ops).dfs_tree = true ∧
      masks_pairwise_disjoint
        (((coreset_region.init d f).run_ops p ops).dfs_tree.map
          (fun n => n.current_mask)) = true := by
  have h := run_ops_mask_chained p ops (coreset_region.init d f) rfl
  exact ⟨h, mask_chained_pairwise h⟩

theorem lexLE_refl : ∀ (a : List Nat), lexLE a a = true := by
  intro a
  induction a with
  | nil => rfl
  | cons x xs ih => simp [lexLE, ih]

theorem lexLE_trans :
    ∀ {a b c : List Nat}, lexLE a b = true → lexLE b c = true →
      lexLE a c = true := by
  intro a
  induction a with
  | nil => intro b c _ _; rfl
  | cons x xs ih =>
    intro b c hab hbc
    cases b with
    | nil => simp [lexLE] at hab
    | cons y ys =>
      cases c with
      | nil => simp [lexLE] at hbc
      | cons z zs =>
        simp only [lexLE, Bool.or_eq_true, Bool.and_eq_true, decide_eq_true_eq,
          beq_iff_eq] at hab hbc ⊢
        rcases hab with h1 | ⟨h1, h2⟩
        · rcases hbc with h3 | ⟨h3, h4⟩
          · exact Or.inl (by omega)
          · exact Or.inl (by omega)
        · rcases hbc with h3 | ⟨h3, h4⟩
          · exact Or.inl (by omega)
          · exact Or.inr ⟨by omega, ih h2 h4⟩

theorem lexLE_append_left :
    ∀ (c a b : List Nat), lexLE (c ++ a) (c ++ b) = lexLE a b := by
  intro c
  induction c with
  | nil => intro a b; rfl
  | cons x xs ih => intro a b; simp [lexLE, ih]

theorem lexLE_append_lt {x y : Nat} (hxy : x < y) :
    ∀ (c a b : List Nat), lexLE (c ++ x :: a) (c ++ y :: b) = true := by
  intro c a b
  rw [lexLE_append_left]
  simp [lexLE, hxy]

theorem lexLE_of_pointwise :
    ∀ {a b : List Nat}, a.length ≤ b.length →
      (∀ i, a.getD i 0 ≤ b.getD i 0) → lexLE a b = true := by
  intro a
  induction a with
  | nil => intro b _ _; rfl
  | cons x xs ih =>
    intro b hlen hpt
    cases b with
    | nil => simp at hlen
    | cons y ys =>
      have hx : x ≤ y := hpt 0
      simp only [lexLE, Bool.or_eq_true, Bool.and_eq_true, decide_eq_true_eq,
        beq_iff_eq]
      rcases Nat.lt_or_ge x y with h | h
      · exact Or.inl h
      · have hxy : x = y := by omega
        refine Or.inr ⟨hxy, ih (by simpa using hlen) ?_⟩
        intro i
        exact hpt (i + 1)

theorem lexLE_append_of :
    ∀ {a b : List Nat}, a.length = b.length → lexLE a b = true →
      ∀ {c d : List Nat}, lexLE c d = true →
        lexLE (a ++ c) (b ++ d) = true := by
  intro a
  induction a with
  | nil =>
    intro b hlen _ c d hcd
    cases b with
    | nil => simpa using hcd
    | cons y ys => simp at hlen
  | cons x xs ih =>
    intro b hlen hab c d hcd
    cases b with
    | nil => simp at hlen
    | cons y ys =>
      simp only [lexLE, Bool.or_eq_true, Bool.and_eq_true, decide_eq_true_eq,
        beq_iff_eq] at hab
      simp only [List.cons_append, lexLE, Bool.or_eq_true, Bool.and_eq_true,
        decide_eq_true_eq, beq_iff_eq]
      rcases hab with h | ⟨h1, h2⟩
      · exact Or.inl h
      · exact Or.inr ⟨h1, ih (by simpa using hlen) h2 hcd⟩

theorem lexLE_zeros :
    ∀ {z ws : List Nat}, (∀ i, z.getD i 0 = 0) → z.length ≤ ws.length →
      lexLE z ws = true := by
  intro z ws hz hlen
  apply lexLE_of_pointwise hlen
  intro i
  rw [hz i]
  exact Nat.zero_le _

theorem lexLE_step :
    ∀ (c : List Nat) {x : Nat} {s : List Nat} (z : List Nat) {vs : List Nat},
      (∀ i, z.getD i 0 = 0) → z.length = s.length →
      vs.length = c.length + 1 + s.length →
      lexLE (c ++ x :: s) vs = true →
      (∃ ws, vs = c ++ x :: ws ∧ lexLE s ws = true) ∨
        lexLE (c ++ (x + 1) :: z) vs = true := by
  intro c
  induction c with
  | nil =>
    intro x s z vs hz hzlen hvlen h
    cases vs with
    | nil => simp [lexLE] at h
    | cons v ws =>
      simp only [List.nil_append, lexLE, Bool.or_eq_true, Bool.and_eq_true,
        decide_eq_true_eq, beq_iff_eq] at h
      rcases h with h | ⟨h1, h2⟩
      · right
        simp only [List.nil_append, lexLE, Bool.or_eq_true, Bool.and_eq_true,
          decide_eq_true_eq, beq_iff_eq]
        rcases Nat.lt_or_ge (x + 1) v with hv | hv
        · exact Or.inl hv
        · have hveq : v = x + 1 := by omega
          refine Or.inr ⟨hveq.symm, lexLE_zeros hz ?_⟩
          simp only [List.length_cons, List.length_nil] at hvlen
          omega
      · subst h1
        left
        refine ⟨ws, ?_, h2⟩
        simp
  | cons y c2 ih =>
    intro x s z vs hz hzlen hvlen h
    cases vs with
    | nil => simp [lexLE] at h
    | cons v ws =>
      simp only [List.cons_append, lexLE, Bool.or_eq_true, Bool.and_eq_true,
        decide_eq_true_eq, beq_iff_eq] at h
      rcases h with h | ⟨h1, h2⟩
      · right
        simp only [List.cons_append, lexLE, Bool.or_eq_true, Bool.and_eq_true,
          decide_eq_true_eq, beq_iff_eq]
        exact Or.inl h
      · subst h1
        have hvlen2 : ws.length = c2.length + 1 + s.length := by
          simp only [List.length_cons] at hvlen
          omega
        rcases ih z hz hzlen hvlen2 h2 with ⟨ws2, hw, hl⟩ | hl
        · exact Or.inl ⟨ws2, by simp [hw], hl⟩
        · right
          simp only [List.cons_append, lexLE, Bool.or_eq_true, Bool.and_eq_true,
            decide_eq_true_eq, beq_iff_eq]
          exact Or.inr ⟨trivial, hl⟩

theorem pend_feasible_pointwise {N : Nat} {p : alloc_record → List Nat} :
    ∀ {pend : List (alloc_record × Nat)} {total : Nat} {vs : List Nat},
      pend_feasible N p pend total vs = true →
      ∀ i, (pend.map (fun q => q.2)).getD i 0 ≤ vs.getD i 0 := by
  intro pend
  induction pend with
  | nil => intro total vs _ i; simp
  | cons q rest ih =>
    intro total vs h i
    obtain ⟨r, st⟩ := q
    cases vs with
    | nil => simp [pend_feasible] at h
    | cons v vs =>
      simp only [pend_feasible, Bool.and_eq_true, decide_eq_true_eq] at h
      obtain ⟨⟨⟨h1, _⟩, _⟩, h4⟩ := h
      cases i with
      | zero => simpa using h1
      | succ j => simpa using ih h4 j

theorem pend_feasible_add_starts {N : Nat} {p : alloc_record → List Nat} :
    ∀ {pend : List (alloc_record × Nat)} {total : Nat} {vs : List Nat},
      pend_feasible N p (pend.map (fun q => (q.1, 0))) total vs = true →
      (∀ i, (pend.map (fun q => q.2)).getD i 0 ≤ vs.getD i 0) →
      pend_feasible N p pend total vs = true := by
  intro pend
  induction pend with
  | nil => intro total vs h _; exact h
  | cons q rest ih =>
    intro total vs h hpt
    obtain ⟨r, st⟩ := q
    cases vs with
    | nil => simp [pend_feasible] at h
    | cons v vs =>
      simp only [List.map_cons, pend_feasible, Bool.and_eq_true,
        decide_eq_true_eq] at h
      obtain ⟨⟨⟨_, h2⟩, h3⟩, h4⟩ := h
      have hst : st ≤ v := by simpa using hpt 0
      simp only [pend_feasible, Bool.and_eq_true, decide_eq_true_eq]
      refine ⟨⟨⟨hst, h2⟩, h3⟩, ih h4 ?_⟩
      intro i
      simpa using hpt (i + 1)

theorem pend_feasible_append {N : Nat} {p : alloc_record → List Nat} :
    ∀ {A B : List (alloc_record × Nat)} {total : Nat} {va vb : List Nat},
      va.length = A.length →
      (pend_feasible N p (A ++ B) total (va ++ vb) = true ↔
        pend_feasible N p A total va = true ∧
          pend_feasible N p B (pend_accum p A va total) vb = true) := by
  intro A
  induction A with
  | nil =>
    intro B total va vb hlen
    have : va = [] := List.length_eq_zero.mp (by simpa using hlen)
    subst this
    simp [pend_feasible, pend_accum]
  | cons q rest ih =>
    intro B total va vb hlen
    obtain ⟨r, st⟩ := q
    cases va with
    | nil => simp at hlen
    | cons v va2 =>
      simp only [List.cons_append, pend_feasible, pend_accum, Bool.and_eq_true,
        List.append_eq]
      rw [ih (by simpa using hlen)]
      tauto

theorem tree_matches_length {N : Nat} {p : alloc_record → List Nat} :
    ∀ {rs : List alloc_record} {ns : List tree_node} {k acc : Nat},
      tree_matches N p rs ns k acc = true → rs.length = ns.length := by
  intro rs
  induction rs with
  | nil =>
    intro ns k acc h
    cases ns with
    | nil => rfl
    | cons n ns2 => simp [tree_matches] at h
  | cons r rs2 ih =>
    intro ns k acc h
    cases ns with
    | nil => simp [tree_matches] at h
    | cons n ns2 =>
      simp only [tree_matches, Bool.and_eq_true] at h
      simpa using ih h.2

theorem tree_matches_accum {N : Nat} {p : alloc_record → List Nat} :
    ∀ {rs : List alloc_record} {ns : List tree_node} {k acc : Nat},
      tree_matches N p rs ns k acc = true →
      pend_accum p (as_pend rs) (cursors ns) acc = last_total acc ns := by
  intro rs
  induction rs with
  | nil =>
    intro ns k acc h
    cases ns with
    | nil => rfl
    | cons n ns2 => simp [tree_matches] at h
  | cons r rs2 ih =>
    intro ns k acc h
    cases ns with
    | nil => simp [tree_matches] at h
    | cons n ns2 =>
      simp only [tree_matches, Bool.and_eq_true] at h
      obtain ⟨hn, hrest⟩ := h
      unfold node_matches at hn
      simp only [Bool.and_eq_true, beq_iff_eq] at hn
      obtain ⟨⟨⟨⟨⟨⟨⟨⟨_, _⟩, _⟩, _⟩, _⟩, hd⟩, _⟩, hcur⟩, htot⟩ := hn
      simp only [as_pend, List.map_cons, cursors, pend_accum, last_total]
      have hstep : acc ||| cand_mask r.aggr_idx ((p r).getD n.dci_pos_idx 0) =
          n.total_mask := by
        rw [hd, ← hcur] at *
        rw [htot]
      rw [hstep]
      have := ih hrest
      simpa [as_pend, cursors] using this

theorem alloc_dfs_complete {N : Nat} {p : alloc_record → List Nat} :
    ∀ {pend : List (alloc_record × Nat)} {total : Nat} {vs : List Nat},
      pend_feasible N p pend total vs = true →
      ∃ ns, alloc_dfs N p pend total = some ns := by
  intro pend
  induction pend with
  | nil => intro total vs _; exact ⟨[], rfl⟩
  | cons q rest ih =>
    intro total vs h
    obtain ⟨r, st⟩ := q
    cases vs with
    | nil => simp [pend_feasible] at h
    | cons v vs2 =>
      simp only [pend_feasible, Bool.and_eq_true, decide_eq_true_eq] at h
      obtain ⟨⟨⟨h1, h2⟩, h3⟩, h4⟩ := h
      have inner : ∀ left i, i + left = (p r).length → i ≤ v →
          ∃ ns, alloc_dfs_scan N r (p r) total
            (fun t2 => alloc_dfs N p rest t2) i left = some ns := by
        intro left
        induction left with
        | zero => intro i hi hiv; omega
        | succ m ihm =>
          intro i hi hiv
          by_cases hc : cand_ok N r.aggr_idx ((p r).getD i 0) total = true
          · cases hk : alloc_dfs N p rest
                (total ||| cand_mask r.aggr_idx ((p r).getD i 0)) with
            | some ms =>
              refine ⟨mk_tree_node r i ((p r).getD i 0) total :: ms, ?_⟩
              simp only [alloc_dfs_scan, if_pos hc]
              rw [hk]
            | none =>
              have hne : i ≠ v := by
                intro he
                subst he
                obtain ⟨ms, hms⟩ := ih h4
                rw [hms] at hk
                exact absurd hk (by simp)
              obtain ⟨ns, hns⟩ := ihm (i + 1) (by omega) (by omega)
              refine ⟨ns, ?_⟩
              simp only [alloc_dfs_scan, if_pos hc]
              rw [hk]
              exact hns
          · have hne : i ≠ v := by
              intro he
              exact hc (he ▸ h3)
            obtain ⟨ns, hns⟩ := ihm (i + 1) (by omega) (by omega)
            refine ⟨ns, ?_⟩
            simp only [alloc_dfs_scan, if_neg hc]
            exact hns
      obtain ⟨ns, hns⟩ := inner ((p r).length - st) st (by omega) h1
      exact ⟨ns, by rw [alloc_dfs]; exact hns⟩

theorem alloc_dfs_minimal {N : Nat} {p : alloc_record → List Nat} :
    ∀ {pend : List (alloc_record × Nat)} {total : Nat} {ns : List tree_node},
      alloc_dfs N p pend total = some ns →
      ∀ {vs : List Nat}, pend_feasible N p pend total vs = true →
        lexLE (cursors ns) vs = true := by
  intro pend
  induction pend with
  | nil =>
    intro total ns h vs _
    have : ns = [] := by
      simp only [alloc_dfs, Option.some_inj] at h
      exact h.symm
    subst this
    rfl
  | cons q rest ih =>
    intro total ns h vs hf
    obtain ⟨r, st⟩ := q
    cases vs with
    | nil => simp [pend_feasible] at hf
    | cons v vs2 =>
      simp only [pend_feasible, Bool.and_eq_true, decide_eq_true_eq] at hf
      obtain ⟨⟨⟨h1, h2⟩, h3⟩, h4⟩ := hf
      have inner : ∀ left i ns2, i + left = (p r).length →
          alloc_dfs_scan N r (p r) total
            (fun t2 => alloc_dfs N p rest t2) i left = some ns2 →
          i ≤ v →
          lexLE (cursors ns2) (v :: vs2) = true := by
        intro left
        induction left with
        | zero =>
          intro i ns2 hi hscan hiv
          exact absurd hscan (by simp [alloc_dfs_scan])
        | succ m ihm =>
          intro i ns2 hi hscan hiv
          by_cases hc : cand_ok N r.aggr_idx ((p r).getD i 0) total = true
          · rw [show alloc_dfs_scan N r (p r) total
                  (fun t2 => alloc_dfs N p rest t2) i (m + 1) =
                if cand_ok N r.aggr_idx ((p r).getD i 0) total then
                  match alloc_dfs N p rest
                      (total ||| cand_mask r.aggr_idx ((p r).getD i 0)) with
                  | some ms =>
                    some (mk_tree_node r i ((p r).getD i 0) total :: ms)
                  | none => alloc_dfs_scan N r (p r) total
                      (fun t2 => alloc_dfs N p rest t2) (i + 1) m
                else alloc_dfs_scan N r (p r) total
                    (fun t2 => alloc_dfs N p rest t2) (i + 1) m from rfl] at hscan
            rw [if_pos hc] at hscan
            cases hk : alloc_dfs N p rest
                (total ||| cand_mask r.aggr_idx ((p r).getD i 0)) with
            | some ms =>
              rw [hk] at hscan
              simp only [Option.some_inj] at hscan
              subst hscan
              simp only [cursors, List.map_cons, mk_tree_node, lexLE,
                Bool.or_eq_true, Bool.and_eq_true, decide_eq_true_eq, beq_iff_eq]
              rcases Nat.lt_or_ge i v with hlt | hge
              · exact Or.inl hlt
              · have hieq : i = v := by omega
                subst hieq
                exact Or.inr ⟨rfl, ih hk h4⟩
            | none =>
              rw [hk] at hscan
              have hne : i ≠ v := by
                intro he
                subst he
                obtain ⟨ms, hms⟩ := alloc_dfs_complete h4
                rw [hms] at hk
                exact absurd hk (by simp)
              exact ihm (i + 1) ns2 (by omega) hscan (by omega)
          · rw [show alloc_dfs_scan N r (p r) total
                  (fun t2 => alloc_dfs N p rest t2) i (m + 1) =
                if cand_ok N r.aggr_idx ((p r).getD i 0) total then
                  match alloc_dfs N p rest
                      (total ||| cand_mask r.aggr_idx ((p r).getD i 0)) with
                  | some ms =>
                    some (mk_tree_node r i ((p r).getD i 0) total :: ms)
                  | none => alloc_dfs_scan N r (p r) total
                      (fun t2 => alloc_dfs N p rest t2) (i + 1) m
                else alloc_dfs_scan N r (p r) total
                    (fun t2 => alloc_dfs N p rest t2) (i + 1) m from rfl] at hscan
            rw [if_neg hc] at hscan
            have hne : i ≠ v := by
              intro he
              exact hc (he ▸ h3)
            exact ihm (i + 1) ns2 (by omega) hscan (by omega)
      rw [alloc_dfs] at h
      exact inner ((p r).length - st) st ns (by omega) h h1

theorem list_take_succ_eq {α : Type} [Inhabited α] :
    ∀ (l : List α) (n : Nat), n < l.length →
      l.take (n + 1) = l.take n ++ [l.getD n default] := by
  intro l
  induction l with
  | nil => intro n h; simp at h
  | cons a rest ih =>
    intro n h
    cases n with
    | zero => rfl
    | succ m =>
      simp only [List.take_succ_cons, List.cons_append]
      rw [ih m (by simpa using h)]
      rfl

theorem cursors_append (a b : List tree_node) :
    cursors (a ++ b) = cursors a ++ cursors b := by
  simp [cursors]

theorem tree_matches_append {N : Nat} {p : alloc_record → List Nat} :
    ∀ {rs1 : List alloc_record} {ns1 : List tree_node}
      {rs2 : List alloc_record} {ns2 : List tree_node} {k acc : Nat},
      tree_matches N p rs1 ns1 k acc = true →
      tree_matches N p rs2 ns2 (k + ns1.length) (last_total acc ns1) = true →
      tree_matches N p (rs1 ++ rs2) (ns1 ++ ns2) k acc = true := by
  intro rs1
  induction rs1 with
  | nil =>
    intro ns1 rs2 ns2 k acc h1 h2
    cases ns1 with
    | nil => simpa [last_total] using h2
    | cons n ns => simp [tree_matches] at h1
  | cons r rs ih =>
    intro ns1 rs2 ns2 k acc h1 h2
    cases ns1 with
    | nil => simp [tree_matches] at h1
    | cons n ns =>
      simp only [tree_matches, Bool.and_eq_true] at h1
      simp only [List.cons_append, tree_matches, Bool.and_eq_true]
      refine ⟨h1.1, ih h1.2 ?_⟩
      have harith : k + 1 + ns.length = k + (n :: ns).length := by
        simp
        omega
      rw [harith]
      simpa [last_total] using h2

theorem tree_matches_snoc {N : Nat} {p : alloc_record → List Nat} :
    ∀ {rs : List alloc_record} {ns : List tree_node}
      {r : alloc_record} {n : tree_node} {k acc : Nat},
      tree_matches N p (rs ++ [r]) (ns ++ [n]) k acc = true →
      rs.length = ns.length →
      tree_matches N p rs ns k acc = true ∧
        node_matches N p r n (k + ns.length) (last_total acc ns) = true := by
  intro rs
  induction rs with
  | nil =>
    intro ns r n k acc h hlen
    have : ns = [] := List.length_eq_zero.mp (by simpa using hlen.symm)
    subst this
    simp only [List.nil_append, tree_matches, Bool.and_eq_true] at h
    exact ⟨rfl, by simpa [last_total] using h.1⟩
  | cons r0 rs2 ih =>
    intro ns r n k acc h hlen
    cases ns with
    | nil => simp at hlen
    | cons n0 ns2 =>
      simp only [List.cons_append, tree_matches, Bool.and_eq_true] at h
      obtain ⟨hn0, hrest⟩ := h
      obtain ⟨ha, hb⟩ := ih hrest (by simpa using hlen)
      refine ⟨?_, ?_⟩
      · simp only [tree_matches, Bool.and_eq_true]
        exact ⟨hn0, ha⟩
      · have harith : k + 1 + ns2.length = k + (n0 :: ns2).length := by
          simp
          omega
        rw [← harith]
        simpa [last_total] using hb

theorem build_nodes_matches {N : Nat} {p : alloc_record → List Nat} :
    ∀ {pend : List (alloc_record × Nat)} {vs : List Nat} {total k : Nat},
      pend_feasible N p pend total vs = true →
      recs_idx_from k (pend.map (fun q => q.1)) = true →
      tree_matches N p (pend.map (fun q => q.1))
        (build_nodes p pend vs total) k total = true := by
  intro pend
  induction pend with
  | nil =>
    intro vs total k h _
    cases vs with
    | nil => rfl
    | cons v vs2 => simp [pend_feasible] at h
  | cons q rest ih =>
    intro vs total k h hidx
    obtain ⟨r, st⟩ := q
    cases vs with
    | nil => simp [pend_feasible] at h
    | cons v vs2 =>
      simp only [pend_feasible, Bool.and_eq_true, decide_eq_true_eq] at h
      obtain ⟨⟨⟨h1, h2⟩, h3⟩, h4⟩ := h
      simp only [List.map_cons, recs_idx_from, Bool.and_eq_true, beq_iff_eq] at hidx
      obtain ⟨hridx, hrest_idx⟩ := hidx
      simp only [List.map_cons, build_nodes, tree_matches, Bool.and_eq_true]
      constructor
      · have h3' : cand_ok N r.aggr_idx ((p r)[v]) total = true := by
          rw [List.getD_eq_getElem?_getD, List.getElem?_eq_getElem h2] at h3
          simpa using h3
        simp [node_matches, mk_tree_node, hridx, h2, h3, h3']
      · have := ih h4 hrest_idx
        simpa [mk_tree_node] using this

theorem cont_pop_step {N : Nat} {p : alloc_record → List Nat}
    {dl : List alloc_record} {top : tree_node} {rest : List tree_node}
    (hlen : rest.length + 1 ≤ dl.length)
    (htm : tree_matches N p (dl.take (rest.length + 1))
      (rest.reverse ++ [top]) 0 0 = true) :
    tree_matches N p (dl.take rest.length) rest.reverse 0 0 = true ∧
      top.record_idx = rest.length ∧
      (dl.getD rest.length default).idx = rest.length ∧
      dl.take (rest.length + 1) =
        dl.take rest.length ++ [dl.getD rest.length default] := by
  have hk : rest.length < dl.length := by omega
  have htake : dl.take (rest.length + 1) =
      dl.take rest.length ++ [dl.getD rest.length default] :=
    list_take_succ_eq dl rest.length hk
  rw [htake] at htm
  have hlens : (dl.take rest.length).length = rest.reverse.length := by
    simp
    omega
  obtain ⟨h1, h2⟩ := tree_matches_snoc htm hlens
  unfold node_matches at h2
  simp only [Bool.and_eq_true, beq_iff_eq] at h2
  obtain ⟨⟨⟨⟨⟨⟨⟨⟨hrec, hidx⟩, _⟩, _⟩, _⟩, _⟩, _⟩, _⟩, _⟩ := h2
  have hrevlen : rest.reverse.length = rest.length := by simp
  refine ⟨h1, ?_, ?_, htake⟩
  · rw [hrec, hrevlen]
    omega
  · rw [hidx, hrevlen]
    omega

theorem get_next_dfs_search_matches {N : Nat} {p : alloc_record → List Nat}
    {dl : List alloc_record} :
    ∀ {revtree : List tree_node} {pend : List (alloc_record × Nat)}
      {t : List tree_node},
      revtree.length ≤ dl.length →
      tree_matches N p (dl.take revtree.length) revtree.reverse 0 0 = true →
      recs_idx_from revtree.length (pend.map (fun q => q.1)) = true →
      get_next_dfs_search N p dl revtree pend = some t →
      tree_matches N p (dl.take revtree.length ++ pend.map (fun q => q.1))
        t 0 0 = true := by
  intro revtree
  induction revtree with
  | nil =>
    intro pend t _ _ hidx h
    rw [get_next_dfs_search] at h
    obtain ⟨hf, hb⟩ := alloc_dfs_some_spec h
    rw [hb]
    simpa using build_nodes_matches hf hidx
  | cons top rest ih =>
    intro pend t hlen htm hidx h
    rw [get_next_dfs_search] at h
    have htm2 : tree_matches N p (dl.take (rest.length + 1))
        (rest.reverse ++ [top]) 0 0 = true := by
      simpa using htm
    cases hm : alloc_dfs N p pend top.total_mask with
    | some ns =>
      rw [hm] at h
      simp only [Option.some_inj] at h
      subst h
      obtain ⟨hf, hb⟩ := alloc_dfs_some_spec hm
      have hkept : last_total 0 (top :: rest).reverse = top.total_mask := by
        have := tip_total_reverse_eq_last_total (top :: rest).reverse
        simp only [List.reverse_reverse] at this
        rw [← this]
        rfl
      apply tree_matches_append htm
      have hklen : (0 : Nat) + (top :: rest).reverse.length =
          (top :: rest).length := by simp
      rw [hklen, hkept, hb]
      exact build_nodes_matches hf (by simpa using hidx)
    | none =>
      rw [hm] at h
      obtain ⟨htm', hrec, hridx, htake⟩ := cont_pop_step (by simpa using hlen) htm2
      have hidx' : recs_idx_from rest.length
          (((dl.getD top.record_idx default, top.dci_pos_idx + 1) ::
            pend.map (fun q => (q.1, 0))).map (fun q => q.1)) = true := by
        simp only [List.map_cons, List.map_map, recs_idx_from, Bool.and_eq_true,
          beq_iff_eq, hrec]
        constructor
        · exact hridx
        · rw [show ((fun q => q.1) ∘ fun q => ((q.1, (0 : Nat)) :
              alloc_record × Nat)) = (fun q : alloc_record × Nat => q.1)
            from rfl]
          simpa using hidx
      have hlen2 : rest.length ≤ dl.length := by
        simp only [List.length_cons] at hlen
        omega
      have ihres := ih hlen2 htm' hidx' h
      simp only [List.map_cons, List.map_map] at ihres
      have hmm : ((fun q => q.1) ∘ fun q => ((q.1, (0 : Nat)) :
          alloc_record × Nat)) = (fun q : alloc_record × Nat => q.1) := rfl
      rw [hmm, hrec] at ihres
      rw [show (top :: rest).length = rest.length + 1 from by simp, htake]
      simpa [List.append_assoc] using ihres

theorem explored_sol_lex {N : Nat} {p : alloc_record → List Nat}
    {dl : List alloc_record} :
    ∀ {revtree : List tree_node} {pend : List (alloc_record × Nat)}
      {vs : List Nat},
      explored_sol N p dl revtree pend vs →
      lexLE (cursors revtree.reverse ++ pend.map (fun q => q.2)) vs = true := by
  intro revtree pend vs h
  induction h with
  | keep hw =>
    rename_i revtree2 pend2 ws
    rw [lexLE_append_left]
    apply lexLE_of_pointwise
    · have h1 := pend_feasible_length hw
      simp [h1]
    · exact pend_feasible_pointwise hw
  | pop hp ihp =>
    rename_i top rest pend2 vs2
    have hcur : cursors (top :: rest).reverse =
        cursors rest.reverse ++ [top.dci_pos_idx] := by
      simp [cursors]
    rw [hcur, List.append_assoc]
    have hstep : lexLE
        (cursors rest.reverse ++
          ([top.dci_pos_idx] ++ pend2.map (fun q => q.2)))
        (cursors rest.reverse ++
          ((top.dci_pos_idx + 1) ::
            (pend2.map (fun q => ((q.1, 0) : alloc_record × Nat))).map
              (fun q => q.2))) = true := by
      rw [show [top.dci_pos_idx] ++ pend2.map (fun q => q.2) =
        top.dci_pos_idx :: pend2.map (fun q => q.2) from rfl]
      exact lexLE_append_lt (by omega) _ _ _
    exact lexLE_trans hstep ihp

theorem get_next_dfs_search_complete {N : Nat} {p : alloc_record → List Nat}
    {dl : List alloc_record} :
    ∀ {revtree : List tree_node} {pend : List (alloc_record × Nat)}
      {vs : List Nat},
      explored_sol N p dl revtree pend vs →
      ∃ t, get_next_dfs_search N p dl revtree pend = some t := by
  intro revtree
  induction revtree with
  | nil =>
    intro pend vs h
    cases h with
    | keep hw =>
      obtain ⟨ns, hns⟩ := alloc_dfs_complete hw
      exact ⟨ns, by rw [get_next_dfs_search]; exact hns⟩
  | cons top rest ih =>
    intro pend vs h
    cases hm : alloc_dfs N p pend top.total_mask with
    | some ns =>
      refine ⟨(top :: rest).reverse ++ ns, ?_⟩
      rw [get_next_dfs_search, hm]
    | none =>
      cases h with
      | keep hw =>
        obtain ⟨ns, hns⟩ := alloc_dfs_complete hw
        rw [show tip_total (top :: rest) = top.total_mask from rfl] at hns
        rw [hns] at hm
        exact absurd hm (by simp)
      | pop hp =>
        obtain ⟨t, ht⟩ := ih hp
        refine ⟨t, ?_⟩
        rw [get_next_dfs_search, hm]
        exact ht

theorem get_next_dfs_search_minimal {N : Nat} {p : alloc_record → List Nat}
    {dl : List alloc_record} :
    ∀ {revtree : List tree_node} {pend : List (alloc_record × Nat)}
      {t : List tree_node},
      get_next_dfs_search N p dl revtree pend = some t →
      ∀ {vs : List Nat}, explored_sol N p dl revtree pend vs →
        lexLE (cursors t) vs = true := by
  intro revtree
  induction revtree with
  | nil =>
    intro pend t h vs hexp
    rw [get_next_dfs_search] at h
    cases hexp with
    | keep hw =>
      have := alloc_dfs_minimal h hw
      simpa using this
  | cons top rest ih =>
    intro pend t h vs hexp
    rw [get_next_dfs_search] at h
    cases hm : alloc_dfs N p pend top.total_mask with
    | some ns =>
      rw [hm] at h
      simp only [Option.some_inj] at h
      subst h
      cases hexp with
      | keep hw =>
        rw [cursors_append, lexLE_append_left]
        exact alloc_dfs_minimal hm hw
      | pop hp =>
        have hlexvs := explored_sol_lex hp
        have hcur : cursors ((top :: rest).reverse ++ ns) =
            cursors rest.reverse ++ top.dci_pos_idx :: cursors ns := by
          simp [cursors]
        rw [hcur]
        have hstep : lexLE
            (cursors rest.reverse ++ top.dci_pos_idx :: cursors ns)
            (cursors rest.reverse ++
              ((top.dci_pos_idx + 1) ::
                (pend.map (fun q => ((q.1, 0) : alloc_record × Nat))).map
                  (fun q => q.2))) = true :=
          lexLE_append_lt (by omega) _ _ _
        exact lexLE_trans hstep hlexvs
    | none =>
      rw [hm] at h
      cases hexp with
      | keep hw =>
        obtain ⟨ns, hns⟩ := alloc_dfs_complete hw
        rw [show tip_total (top :: rest) = top.total_mask from rfl] at hns
        rw [hns] at hm
        exact absurd hm (by simp)
      | pop hp => exact ih h hp

theorem lexLE_head_le {a b : Nat} {as bs : List Nat}
    (h : lexLE (a :: as) (b :: bs) = true) : a ≤ b := by
  simp only [lexLE, Bool.or_eq_true, Bool.and_eq_true, decide_eq_true_eq,
    beq_iff_eq] at h
  rcases h with h | ⟨h, _⟩ <;> omega

theorem map_const_getD_zero {α : Type} :
    ∀ (l : List α) (i : Nat), ((l.map (fun _ => (0 : Nat))).getD i 0) = 0 := by
  intro l
  induction l with
  | nil => intro i; simp
  | cons x xs ih =>
    intro i
    cases i with
    | zero => rfl
    | succ j => simp only [List.map_cons, List.getD_cons_succ]; exact ih j

theorem starts_pointwise_of_lex {pend : List (alloc_record × Nat)}
    {ws : List Nat}
    (hz : ∀ i, 1 ≤ i → (pend.map (fun q => q.2)).getD i 0 = 0)
    (hlen : pend.length ≤ ws.length)
    (hlex : lexLE (pend.map (fun q => q.2)) ws = true) :
    ∀ i, (pend.map (fun q => q.2)).getD i 0 ≤ ws.getD i 0 := by
  intro i
  cases i with
  | zero =>
    cases pend with
    | nil => simp
    | cons q ps =>
      cases ws with
      | nil => simp at hlen
      | cons w ws2 =>
        simp only [List.map_cons] at hlex
        simpa using lexLE_head_le hlex
  | succ j =>
    rw [hz (j + 1) (by omega)]
    exact Nat.zero_le _

theorem last_total_concat (l : List tree_node) (n : tree_node) :
    last_total 0 (l ++ [n]) = n.total_mask := by
  rw [last_total_eq_getLast?, List.getLast?_concat]
  rfl

theorem explored_sol_cover {N : Nat} {p : alloc_record → List Nat}
    {dl : List alloc_record} :
    ∀ {revtree : List tree_node} {pend : List (alloc_record × Nat)}
      {vs : List Nat},
      revtree.length ≤ dl.length →
      tree_matches N p (dl.take revtree.length) revtree.reverse 0 0 = true →
      (∀ i, 1 ≤ i → (pend.map (fun q => q.2)).getD i 0 = 0) →
      pend_feasible N p
        (as_pend (dl.take revtree.length ++ pend.map (fun q => q.1)))
        0 vs = true →
      lexLE (cursors revtree.reverse ++ pend.map (fun q => q.2)) vs = true →
      explored_sol N p dl revtree pend vs := by
  intro revtree
  induction revtree with
  | nil =>
    intro pend vs _ _ hz hfeas hlex
    have hfeas2 : pend_feasible N p
        (pend.map (fun q => ((q.1, 0) : alloc_record × Nat))) 0 vs = true := by
      have heq : as_pend (List.take ([] : List tree_node).length dl ++
          pend.map (fun q => q.1)) =
          pend.map (fun q => ((q.1, 0) : alloc_record × Nat)) := by
        simp only [List.length_nil, List.take_zero, List.nil_append, as_pend,
          List.map_map]
        rfl
      rw [heq] at hfeas
      exact hfeas
    have hvslen : vs.length = pend.length := by
      have := pend_feasible_length hfeas2
      simpa using this
    have hlex2 : lexLE (pend.map (fun q => q.2)) vs = true := by
      simpa using hlex
    have hpt := starts_pointwise_of_lex hz (by omega) hlex2
    have hw := pend_feasible_add_starts hfeas2 hpt
    exact explored_sol.keep hw
  | cons top rest ih =>
    intro pend vs hlen htm hz hfeas hlex
    have hlen1 : rest.length + 1 ≤ dl.length := by simpa using hlen
    have htm2 : tree_matches N p (dl.take (rest.length + 1))
        (rest.reverse ++ [top]) 0 0 = true := by simpa using htm
    obtain ⟨htm', hrec, hridx, htake⟩ := cont_pop_step hlen1 htm2
    have hlex2 : lexLE (cursors rest.reverse ++
        top.dci_pos_idx :: pend.map (fun q => q.2)) vs = true := by
      have hcur : cursors (top :: rest).reverse =
          cursors rest.reverse ++ [top.dci_pos_idx] := by
        simp [cursors]
      rw [hcur, List.append_assoc] at hlex
      exact hlex
    have hvslen : vs.length =
        (cursors rest.reverse).length + 1 + (pend.map (fun q => q.2)).length := by
      have h1 := pend_feasible_length hfeas
      have h2 : (dl.take (top :: rest).length).length = rest.length + 1 := by
        simp only [List.length_take, List.length_cons]
        omega
      simp only [as_pend, List.length_map, List.length_append] at h1
      simp only [cursors, List.length_map, List.length_reverse]
      omega
    have hzmap : ∀ i,
        ((pend.map (fun q => ((q.1, 0) : alloc_record × Nat))).map
          (fun q => q.2)).getD i 0 = 0 := by
      intro i
      rw [show (pend.map (fun q => ((q.1, 0) : alloc_record × Nat))).map
            (fun q => q.2) = pend.map (fun _ => (0 : Nat)) from by
          simp only [List.map_map]
          rfl]
      exact map_const_getD_zero pend i
    have hzlen : ((pend.map (fun q => ((q.1, 0) : alloc_record × Nat))).map
        (fun q => q.2)).length = (pend.map (fun q => q.2)).length := by
      simp
    rcases lexLE_step (cursors rest.reverse)
        ((pend.map (fun q => ((q.1, 0) : alloc_record × Nat))).map
          (fun q => q.2)) hzmap hzlen hvslen hlex2 with
      ⟨ws, hvs, hlexws⟩ | hlexpop
    · -- keep the whole tree: vs = cursors kept ++ ws
      have hkeq : cursors (top :: rest).reverse =
          cursors rest.reverse ++ [top.dci_pos_idx] := by
        simp [cursors]
      have hvs2 : vs = cursors (top :: rest).reverse ++ ws := by
        rw [hkeq, List.append_assoc]
        simpa using hvs
      have happ : as_pend (dl.take (top :: rest).length ++
            pend.map (fun q => q.1)) =
          as_pend (dl.take (rest.length + 1)) ++
            as_pend (pend.map (fun q => q.1)) := by
        simp [as_pend]
      rw [happ, hvs2] at hfeas
      have hvalen : (cursors (top :: rest).reverse).length =
          (as_pend (dl.take (rest.length + 1))).length := by
        simp [as_pend, cursors]
        omega
      obtain ⟨hfa, hfb⟩ := (pend_feasible_append hvalen).mp hfeas
      have haccum : pend_accum p (as_pend (dl.take (rest.length + 1)))
          (cursors (top :: rest).reverse) 0 = top.total_mask := by
        have hc2 : cursors (top :: rest).reverse =
            cursors (rest.reverse ++ [top]) := by simp [cursors]
        rw [hc2, tree_matches_accum htm2, last_total_concat]
      rw [haccum] at hfb
      have hfb2 : pend_feasible N p
          (pend.map (fun q => ((q.1, 0) : alloc_record × Nat)))
          top.total_mask ws = true := by
        have heq2 : as_pend (pend.map (fun q => q.1)) =
            pend.map (fun q => ((q.1, 0) : alloc_record × Nat)) := by
          simp only [as_pend, List.map_map]
          rfl
        rw [heq2] at hfb
        exact hfb
      have hwslen : pend.length ≤ ws.length := by
        have := pend_feasible_length hfb2
        simp at this
        omega
      have hpt := starts_pointwise_of_lex hz hwslen hlexws
      have hw := pend_feasible_add_starts hfb2 hpt
      rw [hvs2]
      exact explored_sol.keep hw
    · -- pop the tip and recurse
      apply explored_sol.pop
      apply ih (by omega) htm'
      · intro i hi
        cases i with
        | zero => omega
        | succ j =>
          simp only [List.map_cons, List.getD_cons_succ]
          exact hzmap j
      · have hmapfst : ((dl.getD top.record_idx default, top.dci_pos_idx + 1) ::
            pend.map (fun q => ((q.1, 0) : alloc_record × Nat))).map
              (fun q => q.1) =
            dl.getD rest.length default :: pend.map (fun q => q.1) := by
          simp only [List.map_cons, List.map_map, hrec]
          rw [show ((fun q => q.1) ∘ fun q => ((q.1, (0 : Nat)) :
              alloc_record × Nat)) = (fun q : alloc_record × Nat => q.1)
            from rfl]
        rw [hmapfst]
        have hlisteq : dl.take rest.length ++
            (dl.getD rest.length default :: pend.map (fun q => q.1)) =
            dl.take (top :: rest).length ++ pend.map (fun q => q.1) := by
          rw [show (top :: rest).length = rest.length + 1 from by simp, htake]
          simp
        rw [hlisteq]
        exact hfeas
      · have hmapsnd : ((dl.getD top.record_idx default, top.dci_pos_idx + 1) ::
            pend.map (fun q => ((q.1, 0) : alloc_record × Nat))).map
              (fun q => q.2) =
            (top.dci_pos_idx + 1) ::
              (pend.map (fun q => ((q.1, 0) : alloc_record × Nat))).map
                (fun q => q.2) := by
          simp
        rw [hmapsnd]
        exact hlexpop

theorem lexLE_single_zero (w : Nat) : lexLE [0] [w] = true := by
  rcases Nat.eq_zero_or_pos w with h | h
  · subst h
    rfl
  · simp [lexLE, h]

theorem coreset_wf_take (p : alloc_record → List Nat) {s : coreset_region}
    (hwf : coreset_wf p s = true) :
    s.dfs_tree.reverse.length ≤ s.dci_list.length ∧
      tree_matches s.nof_cces p (s.dci_list.take s.dfs_tree.reverse.length)
        s.dfs_tree.reverse.reverse 0 0 = true := by
  unfold coreset_wf at hwf
  have hl := tree_matches_length hwf
  constructor
  · simp [← hl]
  · rw [List.reverse_reverse]
    rw [show s.dci_list.take s.dfs_tree.reverse.length = s.dci_list from by
      rw [List.length_reverse, ← hl, List.take_length]]
    exact hwf

theorem alloc_dci_explored {p : alloc_record → List Nat}
    {ty : pdcch_grant_type_t} {a ss : Nat} {ue : Option Nat}
    {s : coreset_region} (hwf : coreset_wf p s = true)
    (hmin : coreset_minimal p s) {vs : List Nat}
    (hfeas : Feasible s.nof_cces p
      (s.dci_list ++ [alloc_dci_record ty a ss ue s]) vs = true) :
    explored_sol s.nof_cces p s.dci_list s.dfs_tree.reverse
      [(alloc_dci_record ty a ss ue s, 0)] vs := by
  obtain ⟨hlen, htm⟩ := coreset_wf_take p hwf
  have hl : s.dci_list.length = s.dfs_tree.length := tree_matches_length hwf
  have hvslen : vs.length = s.dci_list.length + 1 := by
    have := pend_feasible_length hfeas
    simpa [Feasible, as_pend] using this
  have hne : vs ≠ [] := by
    intro he
    rw [he] at hvslen
    simp at hvslen
  have hsplit : vs = vs.dropLast ++ [vs.getLast hne] :=
    (List.dropLast_append_getLast hne).symm
  have hwslen : vs.dropLast.length = s.dci_list.length := by
    simp [hvslen]
  have hfa : pend_feasible s.nof_cces p (as_pend s.dci_list) 0 vs.dropLast = true := by
    unfold Feasible at hfeas
    rw [show as_pend (s.dci_list ++ [alloc_dci_record ty a ss ue s]) =
        as_pend s.dci_list ++ as_pend [alloc_dci_record ty a ss ue s] from by
      simp [as_pend]] at hfeas
    rw [hsplit] at hfeas
    exact ((pend_feasible_append (by simp [as_pend, hwslen])).mp hfeas).1
  have hminws : lexLE (cursors s.dfs_tree) vs.dropLast = true := hmin _ hfa
  apply explored_sol_cover hlen htm
  · intro i hi
    cases i with
    | zero => omega
    | succ j => simp
  · rw [show s.dci_list.take s.dfs_tree.reverse.length = s.dci_list from by
      rw [List.length_reverse, ← hl, List.take_length]]
    exact hfeas
  · rw [List.reverse_reverse]
    have hclen : (cursors s.dfs_tree).length = vs.dropLast.length := by
      simp [cursors, hwslen, hl]
    rw [show ([(alloc_dci_record ty a ss ue s, 0)].map (fun q => q.2)) =
        [0] from rfl]
    rw [hsplit]
    exact lexLE_append_of hclen hminws (lexLE_single_zero _)

theorem alloc_dci_complete_min {p : alloc_record → List Nat}
    {ty : pdcch_grant_type_t} {a ss : Nat} {ue : Option Nat}
    {s : coreset_region} (hwf : coreset_wf p s = true)
    (hmin : coreset_minimal p s) {vs : List Nat}
    (hfeas : Feasible s.nof_cces p
      (s.dci_list ++ [alloc_dci_record ty a ss ue s]) vs = true) :
    (s.alloc_dci p ty a ss ue).1 = true := by
  obtain ⟨t, ht⟩ :=
    get_next_dfs_search_complete (alloc_dci_explored hwf hmin hfeas)
  unfold coreset_region.alloc_dci
  rw [ht]

theorem alloc_dci_cfg (p : alloc_record → List Nat)
    (ty : pdcch_grant_type_t) (a ss : Nat) (ue : Option Nat)
    (s : coreset_region) :
    (s.alloc_dci p ty a ss ue).2.nof_cces = s.nof_cces := by
  unfold coreset_region.alloc_dci
  cases hm : get_next_dfs_search s.nof_cces p s.dci_list s.dfs_tree.reverse
      [(alloc_dci_record ty a ss ue s, 0)] with
  | some t => rfl
  | none => rfl

theorem alloc_dci_preserves_wf_min {p : alloc_record → List Nat}
    {ty : pdcch_grant_type_t} {a ss : Nat} {ue : Option Nat}
    {s : coreset_region} (hwf : coreset_wf p s = true)
    (hmin : coreset_minimal p s) :
    coreset_wf p (s.alloc_dci p ty a ss ue).2 = true ∧
      coreset_minimal p (s.alloc_dci p ty a ss ue).2 := by
  cases hb : (s.alloc_dci p ty a ss ue).1 with
  | false =>
    rw [alloc_dci_failure_unchanged p ty a ss ue s hb]
    exact ⟨hwf, hmin⟩
  | true =>
    obtain ⟨t, hm, htree, hlist, hlen1⟩ := alloc_dci_true_shape hb
    obtain ⟨hlen, htm⟩ := coreset_wf_take p hwf
    have hl : s.dci_list.length = s.dfs_tree.length := tree_matches_length hwf
    have hidx : recs_idx_from s.dfs_tree.reverse.length
        ([(alloc_dci_record ty a ss ue s, 0)].map (fun q => q.1)) = true := by
      simp only [List.map_cons, List.map_nil, recs_idx_from, Bool.and_eq_true,
        beq_iff_eq]
      refine ⟨?_, trivial⟩
      simp [alloc_dci_record, hl]
    have hmatch := get_next_dfs_search_matches hlen htm hidx hm
    rw [show s.dci_list.take s.dfs_tree.reverse.length = s.dci_list from by
      rw [List.length_reverse, ← hl, List.take_length]] at hmatch
    constructor
    · unfold coreset_wf
      rw [alloc_dci_cfg, htree, hlist]
      simpa using hmatch
    · intro vs hfeas
      rw [alloc_dci_cfg, hlist] at hfeas
      have hexp := alloc_dci_explored hwf hmin hfeas
      have := get_next_dfs_search_minimal hm hexp
      rw [htree]
      exact this

theorem run_allocs_wf_min (p : alloc_record → List Nat) :
    ∀ (calls : List (pdcch_grant_type_t × Nat × Nat × Option Nat))
      (s : coreset_region), coreset_wf p s = true → coreset_minimal p s →
      coreset_wf p (s.run_allocs p calls).1 = true ∧
        coreset_minimal p (s.run_allocs p calls).1 := by
  intro calls
  induction calls with
  | nil => intro s hwf hmin; exact ⟨hwf, hmin⟩
  | cons q rest ih =>
    intro s hwf hmin
    obtain ⟨ty, a, ss, ue⟩ := q
    obtain ⟨hwf2, hmin2⟩ :=
      @alloc_dci_preserves_wf_min p ty a ss ue s hwf hmin
    exact ih _ hwf2 hmin2

/-- C3 (amended): search completeness holds in every state reachable from a
fresh (or freshly reset) region by `alloc_dci` calls alone: if there exists
any joint assignment of admissible, pairwise non-overlapping candidates for
the new request together with all previously committed requests (each
candidate drawn from its provider list), then `alloc_dci` returns true —
in particular, the search backtracks earlier grants to later candidates
rather than failing. -/
theorem c3_amended_completeness (d f : Nat) (p : alloc_record → List Nat)
    (calls : List (pdcch_grant_type_t × Nat × Nat × Option Nat))
    (ty : pdcch_grant_type_t) (a ss : Nat) (ue : Option Nat) (vs : List Nat)
    (hfeas : Feasible
      (((coreset_region.init d f).run_allocs p calls).1).nof_cces p
      ((((coreset_region.init d f).run_allocs p calls).1).dci_list ++
        [alloc_dci_record ty a ss ue
          (((coreset_region.init d f).run_allocs p calls).1)]) vs = true) :
    ((((coreset_region.init d f).run_allocs p calls).1).alloc_dci
      p ty a ss ue).1 = true := by
  have hinit_wf : coreset_wf p (coreset_region.init d f) = true := rfl
  have hinit_min : coreset_minimal p (coreset_region.init d f) := by
    intro vs2 _
    rfl
  obtain ⟨hwf, hmin⟩ := run_allocs_wf_min p calls _ hinit_wf hinit_min
  exact alloc_dci_complete_min hwf hmin hfeas

/-- Witness for C3 amended at the 3-CCE backtracking scenario from the
spec: grant 1 spans 2 CCEs with candidates at 0 and 1 and is committed
first-fit at 0; grant 2 has the single 1-CCE candidate 0; the joint
assignment (grant 1 at its second candidate, grant 2 at its only one)
exists, and the allocation of grant 2 indeed succeeds by backtracking. -/
theorem c3_amended_completeness_witness :
    ((((coreset_region.init 1 3).run_allocs
        (fun r => if r.ss_id = 0 then [0, 1] else [0])
        [(pdcch_grant_type_t.dl_data, 1, 0, some 1)]).1).alloc_dci
      (fun r => if r.ss_id = 0 then [0, 1] else [0])
      pdcch_grant_type_t.dl_data 0 1 (some 2)).1 = true :=
  c3_amended_completeness 1 3 (fun r => if r.ss_id = 0 then [0, 1] else [0])
    [(pdcch_grant_type_t.dl_data, 1, 0, some 1)]
    pdcch_grant_type_t.dl_data 0 1 (some 2) [1, 0] (by decide)

/-- C3 counterexample: the claim as stated quantifies over every reachable
state, but after a `rem_last_dci` the search only advances candidate
cursors and never revisits earlier candidates of re-placed grants: in
`scenario_b_s3` grant A sits on CCE 2 (its second candidate) with CCE 0
free; the joint assignment (A at candidate 0, new 2-CCE grant at its only
candidate, CCE 2) is feasible, yet `alloc_dci` returns false. -/
theorem c3_counterexample :
    Feasible scenario_b_s3.nof_cces provider_b
        (scenario_b_s3.dci_list ++
          [alloc_dci_record pdcch_grant_type_t.dl_data 1 2 (some 3)
            scenario_b_s3]) [0, 0] = true ∧
      (scenario_b_s3.alloc_dci provider_b pdcch_grant_type_t.dl_data
        1 2 (some 3)).1 = false := by
  decide

theorem alloc_dfs_scan_count_le {N : Nat} {r : alloc_record} {l : List Nat}
    {total : Nat} {k : Nat → Option (List tree_node)} {kc : Nat → Nat} {K : Nat}
    (hk : ∀ t2, kc t2 ≤ K) :
    ∀ (left i : Nat),
      alloc_dfs_scan_count N r l total k kc i left ≤ left * (1 + K) := by
  intro left
  induction left with
  | zero => intro i; simp [alloc_dfs_scan_count]
  | succ m ih =>
    intro i
    simp only [alloc_dfs_scan_count]
    by_cases hc : cand_ok N r.aggr_idx (l.getD i 0) total = true
    · rw [if_pos hc]
      cases hkk : k (total ||| cand_mask r.aggr_idx (l.getD i 0)) with
      | some ms =>
        have := hk (total ||| cand_mask r.aggr_idx (l.getD i 0))
        have hm1 : (1 : Nat) ≤ m + 1 := by omega
        calc 1 + kc (total ||| cand_mask r.aggr_idx (l.getD i 0)) ≤ 1 + K := by
              omega
          _ ≤ (m + 1) * (1 + K) := Nat.le_mul_of_pos_left _ (by omega)
      | none =>
        have h1 := hk (total ||| cand_mask r.aggr_idx (l.getD i 0))
        have h2 := ih (i + 1)
        calc 1 + kc (total ||| cand_mask r.aggr_idx (l.getD i 0)) +
              alloc_dfs_scan_count N r l total k kc (i + 1) m ≤
            1 + K + m * (1 + K) := by omega
          _ = (m + 1) * (1 + K) := by ring
    · rw [if_neg hc]
      have h2 := ih (i + 1)
      calc 1 + alloc_dfs_scan_count N r l total k kc (i + 1) m ≤
          1 + K + m * (1 + K) := by omega
        _ = (m + 1) * (1 + K) := by ring

theorem alloc_dfs_count_le {N : Nat} {p : alloc_record → List Nat} :
    ∀ (pend : List (alloc_record × Nat)) (total : Nat),
      alloc_dfs_count N p pend total ≤ pend_bound p pend := by
  intro pend
  induction pend with
  | nil => intro total; simp [alloc_dfs_count, pend_bound]
  | cons q rest ih =>
    intro total
    obtain ⟨r, st⟩ := q
    simp only [alloc_dfs_count, pend_bound]
    exact alloc_dfs_scan_count_le (fun t2 => ih t2) _ _

theorem one_le_cand_factors (p : alloc_record → List Nat) :
    ∀ (recs : List alloc_record), 1 ≤ cand_factors p recs := by
  intro recs
  induction recs with
  | nil => simp [cand_factors]
  | cons r rest ih =>
    simp only [cand_factors, List.map_cons, List.prod_cons]
    calc 1 ≤ 1 * 1 := by omega
      _ ≤ ((p r).length + 1) *
          ((rest.map (fun r2 => (p r2).length + 1)).prod) :=
        Nat.mul_le_mul (by omega) ih

theorem pend_bound_lt_cand_factors (p : alloc_record → List Nat) :
    ∀ (pend : List (alloc_record × Nat)),
      pend_bound p pend + 1 ≤ cand_factors p (pend.map (fun q => q.1)) := by
  intro pend
  induction pend with
  | nil => simp [pend_bound, cand_factors]
  | cons q rest ih =>
    obtain ⟨r, st⟩ := q
    simp only [pend_bound, List.map_cons, cand_factors, List.prod_cons]
    have hone := one_le_cand_factors p (rest.map (fun q => q.1))
    simp only [cand_factors] at ih hone
    calc ((p r).length - st) * (1 + pend_bound p rest) + 1 ≤
        (p r).length * ((rest.map (fun q => q.1)).map
          (fun r2 => (p r2).length + 1)).prod + 1 := by
          have hmul : ((p r).length - st) * (1 + pend_bound p rest) ≤
              (p r).length * ((rest.map (fun q => q.1)).map
                (fun r2 => (p r2).length + 1)).prod :=
            Nat.mul_le_mul (by omega) (by omega)
          omega
      _ ≤ ((p r).length + 1) * ((rest.map (fun q => q.1)).map
          (fun r2 => (p r2).length + 1)).prod := by
          have := hone
          nlinarith
    
theorem cand_factors_append (p : alloc_record → List Nat)
    (a b : List alloc_record) :
    cand_factors p (a ++ b) = cand_factors p a * cand_factors p b := by
  simp [cand_factors]

theorem get_next_dfs_count_le {N : Nat} {p : alloc_record → List Nat}
    {dl : List alloc_record} :
    ∀ {revtree : List tree_node} {pend : List (alloc_record × Nat)},
      revtree.length ≤ dl.length →
      tree_matches N p (dl.take revtree.length) revtree.reverse 0 0 = true →
      get_next_dfs_count N p dl revtree pend ≤
        (revtree.length + 1) *
          cand_factors p
            (dl.take revtree.length ++ pend.map (fun q => q.1)) := by
  intro revtree
  induction revtree with
  | nil =>
    intro pend _ _
    rw [get_next_dfs_count]
    have h1 := alloc_dfs_count_le (N := N) (p := p) pend 0
    have h2 := pend_bound_lt_cand_factors p pend
    simp only [List.length_nil, List.take_zero, List.nil_append, Nat.zero_add,
      one_mul]
    omega
  | cons top rest ih =>
    intro pend hlen htm
    have hlen1 : rest.length + 1 ≤ dl.length := by simpa using hlen
    have htm2 : tree_matches N p (dl.take (rest.length + 1))
        (rest.reverse ++ [top]) 0 0 = true := by simpa using htm
    obtain ⟨htm', hrec, hridx, htake⟩ := cont_pop_step hlen1 htm2
    rw [get_next_dfs_count]
    simp only [List.length_cons]
    have hdfs : alloc_dfs_count N p pend top.total_mask ≤
        cand_factors p (dl.take (rest.length + 1) ++
          pend.map (fun q => q.1)) := by
      have h1 := alloc_dfs_count_le (N := N) (p := p) pend top.total_mask
      have h2 := pend_bound_lt_cand_factors p pend
      rw [cand_factors_append]
      have h4 := one_le_cand_factors p (dl.take (rest.length + 1))
      have h5 : cand_factors p (pend.map (fun q => q.1)) ≤
          cand_factors p (dl.take (rest.length + 1)) *
            cand_factors p (pend.map (fun q => q.1)) :=
        Nat.le_mul_of_pos_left _ (by omega)
      omega
    split
    · have hmul : cand_factors p (dl.take (rest.length + 1) ++
            pend.map (fun q => q.1)) ≤
          (rest.length + 1 + 1) * cand_factors p (dl.take (rest.length + 1) ++
            pend.map (fun q => q.1)) :=
        Nat.le_mul_of_pos_left _ (by omega)
      omega
    · have hrecurse := @ih ((dl.getD top.record_idx default,
        top.dci_pos_idx + 1) :: pend.map (fun q => (q.1, 0))) (by omega) htm'
      have heqlist : dl.take rest.length ++
          (((dl.getD top.record_idx default, top.dci_pos_idx + 1) ::
            pend.map (fun q => (q.1, 0))).map (fun q => q.1)) =
          dl.take (rest.length + 1) ++ pend.map (fun q => q.1) := by
        simp only [List.map_cons, List.map_map]
        rw [show ((fun q => q.1) ∘ fun q => ((q.1, (0 : Nat)) :
            alloc_record × Nat)) = (fun q : alloc_record × Nat => q.1)
          from rfl]
        rw [htake]
        simp [hrec]
      rw [heqlist] at hrecurse
      have hsum : (rest.length + 1 + 1) *
          cand_factors p (dl.take (rest.length + 1) ++
            pend.map (fun q => q.1)) =
          cand_factors p (dl.take (rest.length + 1) ++
            pend.map (fun q => q.1)) +
          (rest.length + 1) * cand_factors p (dl.take (rest.length + 1) ++
            pend.map (fun q => q.1)) := by ring
      omega

theorem tree_matches_take {N : Nat} {p : alloc_record → List Nat} :
    ∀ (j : Nat) {rs : List alloc_record} {ns : List tree_node} {k acc : Nat},
      tree_matches N p rs ns k acc = true →
      tree_matches N p (rs.take j) (ns.take j) k acc = true := by
  intro j
  induction j with
  | zero =>
    intro rs ns k acc h
    simp [tree_matches]
  | succ m ih =>
    intro rs ns k acc h
    cases rs with
    | nil =>
      cases ns with
      | nil => simpa using h
      | cons n ns2 => simp [tree_matches] at h
    | cons r rs2 =>
      cases ns with
      | nil => simp [tree_matches] at h
      | cons n ns2 =>
        simp only [tree_matches, Bool.and_eq_true] at h
        simp only [List.take_succ_cons, tree_matches, Bool.and_eq_true]
        exact ⟨h.1, ih h.2⟩

theorem alloc_dci_preserves_wf {p : alloc_record → List Nat}
    {ty : pdcch_grant_type_t} {a ss : Nat} {ue : Option Nat}
    {s : coreset_region} (hwf : coreset_wf p s = true) :
    coreset_wf p (s.alloc_dci p ty a ss ue).2 = true := by
  cases hb : (s.alloc_dci p ty a ss ue).1 with
  | false =>
    rw [alloc_dci_failure_unchanged p ty a ss ue s hb]
    exact hwf
  | true =>
    obtain ⟨t, hm, htree, hlist, hlen1⟩ := alloc_dci_true_shape hb
    obtain ⟨hlen, htm⟩ := coreset_wf_take p hwf
    have hl : s.dci_list.length = s.dfs_tree.length := tree_matches_length hwf
    have hidx : recs_idx_from s.dfs_tree.reverse.length
        ([(alloc_dci_record ty a ss ue s, 0)].map (fun q => q.1)) = true := by
      simp only [List.map_cons, List.map_nil, recs_idx_from, Bool.and_eq_true,
        beq_iff_eq]
      refine ⟨?_, trivial⟩
      simp [alloc_dci_record, hl]
    have hmatch := get_next_dfs_search_matches hlen htm hidx hm
    rw [show s.dci_list.take s.dfs_tree.reverse.length = s.dci_list from by
      rw [List.length_reverse, ← hl, List.take_length]] at hmatch
    unfold coreset_wf
    rw [alloc_dci_cfg, htree, hlist]
    simpa using hmatch

theorem rem_last_dci_preserves_wf {p : alloc_record → List Nat}
    {s : coreset_region} (hwf : coreset_wf p s = true) :
    coreset_wf p s.rem_last_dci = true := by
  have hl : s.dci_list.length = s.dfs_tree.length := tree_matches_length hwf
  unfold coreset_wf at hwf ⊢
  have h := tree_matches_take (s.dfs_tree.length - 1) hwf
  show tree_matches s.nof_cces p s.dci_list.dropLast s.dfs_tree.dropLast
    0 0 = true
  rw [List.dropLast_eq_take, List.dropLast_eq_take, hl]
  exact h

theorem reset_wf (p : alloc_record → List Nat) (s : coreset_region) :
    coreset_wf p s.reset = true := rfl

theorem init_wf (p : alloc_record → List Nat) (d f : Nat) :
    coreset_wf p (coreset_region.init d f) = true := rfl

theorem run_op_wf {p : alloc_record → List Nat} {s : coreset_region}
    (op : sched_op) (hwf : coreset_wf p s = true) :
    coreset_wf p (s.run_op p op) = true := by
  cases op with
  | alloc ty a ss ue => exact alloc_dci_preserves_wf hwf
  | rem => exact rem_last_dci_preserves_wf hwf
  | reset => exact reset_wf p s

theorem run_ops_wf {p : alloc_record → List Nat} :
    ∀ (ops : List sched_op) (s : coreset_region), coreset_wf p s = true →
      coreset_wf p (s.run_ops p ops) = true := by
  intro ops
  induction ops with
  | nil => intro s hwf; exact hwf
  | cons op rest ih => intro s hwf; exact ih _ (run_op_wf op hwf)

theorem alloc_dci_examined_le {p : alloc_record → List Nat}
    {ty : pdcch_grant_type_t} {a ss : Nat} {ue : Option Nat}
    {s : coreset_region} (hwf : coreset_wf p s = true) :
    s.alloc_dci_examined p ty a ss ue ≤
      (s.nof_allocs + 1) *
        cand_factors p (s.dci_list ++ [alloc_dci_record ty a ss ue s]) := by
  obtain ⟨hlen, htm⟩ := coreset_wf_take p hwf
  have hl : s.dci_list.length = s.dfs_tree.length := tree_matches_length hwf
  have h := @get_next_dfs_count_le s.nof_cces p s.dci_list s.dfs_tree.reverse
    [(alloc_dci_record ty a ss ue s, 0)] hlen htm
  rw [show s.dci_list.take s.dfs_tree.reverse.length = s.dci_list from by
    rw [List.length_reverse, ← hl, List.take_length]] at h
  simp only [List.map_cons, List.map_nil, List.length_reverse] at h
  unfold coreset_region.alloc_dci_examined coreset_region.nof_allocs
  exact h

/-- C6 (amended): every `alloc_dci` call terminates: the search is a total
function of the region state and candidate tables (each backtrack step
strictly advances the popped node's candidate cursor over a finite
candidate list, or ends the search).  Its cost, in every state reachable
from a fresh region by any sequence of `alloc_dci` / `rem_last_dci` /
`reset` calls, is that the number of candidate placements examined by one
call is at most (nof_allocs() + 1) times the product, over the committed
records together with the new request, of (candidate-list length + 1) — a
product-of-candidate-lists bound over all grants, not the claimed product
of the maximum grants-per-slot and the maximum per-grant candidate-list
length. -/
theorem c6_amended_cost (d f : Nat) (p : alloc_record → List Nat)
    (ops : List sched_op) (ty : pdcch_grant_type_t) (a ss : Nat)
    (ue : Option Nat) :
    ((coreset_region.init d f).run_ops p ops).alloc_dci_examined p ty a ss
        ue ≤
      (((coreset_region.init d f).run_ops p ops).nof_allocs + 1) *
        cand_factors p
          (((coreset_region.init d f).run_ops p ops).dci_list ++
            [alloc_dci_record ty a ss ue
              ((coreset_region.init d f).run_ops p ops)]) :=
  alloc_dci_examined_le (run_ops_wf ops _ (init_wf p d f))

/-- C6 (counterexample to the stated bound): in a 16-CCE CORESET with eight
committed single-CCE grants, each drawn from a 2-candidate list, an
`alloc_dci` request for a 16-CCE grant examines 758 candidate placements —
more than the product of the grants-per-slot maximum (2 * MAX_GRANTS = 128
at MAX_GRANTS = 64, and only 9 grants are even involved) and the maximum
candidate-list length 2. -/
theorem c6_counterexample :
    scenario_c_state.alloc_dci_examined provider_c pdcch_grant_type_t.dl_data
        4 8 (some 9) = 758 ∧
      scenario_c_state.nof_allocs = 8 ∧
      ((scenario_c_state.dci_list ++
          [alloc_dci_record pdcch_grant_type_t.dl_data 4 8 (some 9)
            scenario_c_state]).all
        (fun r => decide ((provider_c r).length ≤ 2))) = true ∧
      (scenario_c_state.nof_allocs + 1) * 2 < 758 ∧
      2 * 64 * 2 < 758 := by
  refine ⟨?_, ?_, ?_, ?_, ?_⟩ <;> decide
